import Mathlib

/-!
Verification development for the publication hierarchy builder and
cross-version reconciler (`Source/hierarchy_builder.py`, `Source/utils.py`,
`Source/config.py`).

Modelling conventions:
* Python strings are modelled as `List Char` (`Str`).
* Python dicts are modelled as association lists in insertion order, with
  assignment modelled by `insertA` (replace in place, or append when the key
  is new), matching CPython's dict semantics including iteration order.
* `compute_content_hash` truncates a SHA-256 digest of the normalised text;
  distinct normalised strings essentially never collide, and the code relies
  on that.  The digest is modelled by the normalised text itself, an
  injective stand-in with the same equality behaviour.
* `unicodedata.normalize('NFKC', ...)`, `str.lower()` and `str.strip()` are
  modelled for ASCII text (the identity, ASCII lowering and ASCII-whitespace
  stripping respectively).
* Regex scans (`re.finditer`, `re.search`, `re.split`) are modelled as
  left-to-right character scans with explicit fuel so that all definitions
  compute by kernel reduction.  Fuel `length + 1` always suffices because
  every step consumes at least one character.
-/

abbrev Str := List Char

/-- ASCII whitespace, as matched by Python's `\s` on the inputs considered. -/
def isPySpace (c : Char) : Bool :=
  c = ' ' || c = '\t' || c = '\n' || c = '\r' || c = Char.ofNat 11 || c = Char.ofNat 12

def isDigitCh (c : Char) : Bool := '0' ≤ c && c ≤ '9'

def isUpperAZ (c : Char) : Bool := 'A' ≤ c && c ≤ 'Z'

/-- Characters allowed in an environment name: the regex class `[a-zA-Z*]`. -/
def isEnvNameChar (c : Char) : Bool :=
  ('a' ≤ c && c ≤ 'z') || ('A' ≤ c && c ≤ 'Z') || c = '*'

/-- First value bound to a key in an association list (Python dict lookup). -/
def lookupA {β : Type} : List (Str × β) → Str → Option β
  | [], _ => none
  | (k, v) :: rest, key => if k = key then some v else lookupA rest key

/-- `dict.get(key, default)`. -/
def lookupD {β : Type} (m : List (Str × β)) (k : Str) (d : β) : β :=
  (lookupA m k).getD d

/-- Python dict assignment `m[k] = v`: replace in place, else append. -/
def insertA {β : Type} : List (Str × β) → Str → β → List (Str × β)
  | [], k, v => [(k, v)]
  | (k0, v0) :: rest, k, v =>
    if k0 = k then (k0, v) :: rest else (k0, v0) :: insertA rest k v

def keysA {β : Type} (m : List (Str × β)) : List Str := m.map Prod.fst

/-- Decimal digit character, as produced by Python's `str(int)`. -/
def digitChar10 (n : Nat) : Char := Char.ofNat (48 + n)

def natDecGo : Nat → Nat → List Char
  | 0, _ => []
  | f + 1, n => if n < 10 then [digitChar10 n] else natDecGo f (n / 10) ++ [digitChar10 (n % 10)]

/-- Decimal representation of a natural number (Python `str(i)` for `i ≥ 0`). -/
def natDecimal (n : Nat) : Str := natDecGo (n + 1) n

/-- `utils.normalize_text`, whitespace collapsing: `re.sub(r'\s+', ' ', text)`.
The flag records whether the previous character was part of a whitespace run. -/
def collapseWs : Bool → Str → Str
  | _, [] => []
  | prev, c :: rest =>
    if isPySpace c then
      (if prev then collapseWs true rest else ' ' :: collapseWs true rest)
    else c :: collapseWs false rest

/-- Python `str.strip()` (ASCII whitespace). -/
def stripChars (l : Str) : Str :=
  ((l.dropWhile (fun c => isPySpace c)).reverse.dropWhile (fun c => isPySpace c)).reverse

/-- `utils.normalize_text`: NFKC (identity on ASCII), collapse whitespace
runs to a single space, strip. -/
def normalizeText (text : Str) : Str := stripChars (collapseWs false text)

/-- `utils.compute_content_hash`: normalises, then hashes.  The truncated
SHA-256 digest is modelled by the normalised text itself (see header). -/
def computeContentHash (content : Str) : Str := normalizeText content

/-- `utils.generate_element_id`. -/
def generateElementId (pub ver t : Str) (idx : Nat) (parent : Option Str) : Str :=
  match parent with
  | some p => p ++ '-' :: (t ++ '-' :: natDecimal idx)
  | none => pub ++ '-' :: (ver ++ '-' :: (t ++ '-' :: natDecimal idx))

/-! `config.py` constants. -/

def EXCLUDE_SECTIONS : List Str := ["references".data, "bibliography".data]

def INCLUDE_UNNUMBERED_SECTIONS : List Str :=
  ["acknowledgements".data, "acknowledgment".data, "appendix".data, "appendices".data]

def MATH_BLOCK_ENVS : List Str :=
  ["equation".data, "equation*".data, "align".data, "align*".data, "gather".data,
   "gather*".data, "multline".data, "multline*".data, "eqnarray".data,
   "eqnarray*".data, "displaymath".data]

def FIGURE_ENVS : List Str := ["figure".data, "figure*".data, "table".data, "table*".data]

def LIST_ENVS : List Str := ["itemize".data, "enumerate".data, "description".data]

def lowerStr (l : Str) : Str := l.map Char.toLower

/-- Python substring test `pat in s`. -/
def containsSub (pat : Str) : Str → Bool
  | [] => pat.isEmpty
  | c :: rest => pat.isPrefixOf (c :: rest) || containsSub pat rest

/-! ### Section extraction (`HierarchyBuilder.extract_sections`) -/

/-- One raw match of the sectioning regex
`\\(chapter|section|subsection|subsubsection|paragraph|subparagraph)(\*?)\{([^}]+)\}`. -/
structure RawSection where
  cmdName : Str
  starred : Bool
  title : Str
  position : Nat
  endPos : Nat
deriving DecidableEq

/-- The `section_levels` table, keyed by command name (the source keys by
`'\' + name`; the mapping is identical). Listed in the regex's alternation
order. -/
def sectionLevels : List (Str × Nat) :=
  [("chapter".data, 0), ("section".data, 1), ("subsection".data, 2),
   ("subsubsection".data, 3), ("paragraph".data, 4), ("subparagraph".data, 5)]

/-- After a command name matched, parse `(\*?)\{([^}]+)\}`.  Returns the
starred flag, the title and the number of characters consumed after the
backslash.  The regex pieces are deterministic: `\*?` can only take a present
star (backtracking to the empty star then fails on `\{`), and the greedy
`[^}]+` runs to the first `}`. -/
def parseAfterCmd (name : Str) (rest : Str) : Option (Bool × Str × Nat) :=
  if name.isPrefixOf rest then
    let afterName := rest.drop name.length
    let core := fun (r3 : Str) (star : Bool) =>
      let t := r3.takeWhile (fun c => c ≠ '\x7d')
      if t = [] then none
      else match r3.drop t.length with
        | '\x7d' :: _ =>
          some (star, t, name.length + (if star then 1 else 0) + 1 + t.length + 1)
        | _ => none
    match afterName with
    | '*' :: '\x7b' :: r3 => core r3 true
    | '\x7b' :: r3 => core r3 false
    | _ => none
  else none

/-- Try the alternation's command names in order (no two can match at once,
since no name is a prefix of another). -/
def tryCmds : List (Str × Nat) → Str → Option (Str × Bool × Str × Nat)
  | [], _ => none
  | (name, _) :: more, rest =>
    match parseAfterCmd name rest with
    | some (star, t, len) => some (name, star, t, len)
    | none => tryCmds more rest

/-- Attempt to match the sectioning regex at the current position.  Returns
command name, starred flag, title, and total match length. -/
def matchSectionAt : Str → Option (Str × Bool × Str × Nat)
  | '\\' :: rest =>
    match tryCmds sectionLevels rest with
    | some (name, star, t, len) => some (name, star, t, len + 1)
    | none => none
  | _ => none

/-- `re.finditer` scan for section commands: non-overlapping, leftmost,
resuming after each match. -/
def rawSectionsGo : Nat → Str → Nat → List RawSection
  | 0, _, _ => []
  | f + 1, cs, pos =>
    match cs with
    | [] => []
    | c :: rest =>
      match matchSectionAt (c :: rest) with
      | some (name, star, t, len) =>
        { cmdName := name, starred := star, title := t, position := pos,
          endPos := pos + len } :: rawSectionsGo f ((c :: rest).drop len) (pos + len)
      | none => rawSectionsGo f rest (pos + 1)

def rawSections (body : Str) : List RawSection :=
  rawSectionsGo (body.length + 1) body 0

/-- A section dictionary as appended by `extract_sections`. -/
structure SectionSpan where
  command : Str
  title : Str
  level : Nat
  position : Nat
  endPos : Nat
  is_unnumbered : Bool
  include_unnumbered : Bool
  is_references : Bool
deriving DecidableEq

def isRefTitle (title : Str) : Bool :=
  EXCLUDE_SECTIONS.any (fun e => containsSub e (stripChars (lowerStr title)))

def isInclTitle (title : Str) : Bool :=
  INCLUDE_UNNUMBERED_SECTIONS.any (fun e => containsSub e (stripChars (lowerStr title)))

/-- The loop body of `extract_sections`: classify one raw match and decide
whether it is appended to the result list. -/
def classifySpan (m : RawSection) : Option SectionSpan :=
  let lvl := lookupD sectionLevels m.cmdName 1
  if isRefTitle m.title then
    some { command := '\\' :: m.cmdName, title := m.title, level := lvl,
           position := m.position, endPos := m.endPos, is_unnumbered := m.starred,
           include_unnumbered := isInclTitle m.title, is_references := true }
  else if m.starred && !(isInclTitle m.title) then none
  else
    some { command := '\\' :: m.cmdName, title := m.title, level := lvl,
           position := m.position, endPos := m.endPos, is_unnumbered := m.starred,
           include_unnumbered := isInclTitle m.title, is_references := false }

/-- `HierarchyBuilder.extract_sections`. -/
def extractSections (content : Str) : List SectionSpan :=
  (rawSections content).filterMap classifySpan

/-! ### Environment extraction (`HierarchyBuilder.extract_environments`) -/

structure EnvSpan where
  env_name : Str
  env_type : Str
  content : Str
  full_content : Str
  position : Nat
  endPos : Nat
deriving DecidableEq

def endTag (name : Str) : Str := "\\end\x7b".data ++ name ++ ['\x7d']

/-- First index at which `pat` occurs in the text (the non-greedy `(.*?)`
stops at the first occurrence of the backreferenced `\end{name}`). -/
def findSub (pat : Str) : Str → Option Nat
  | [] => if pat.isEmpty then some 0 else none
  | c :: rest =>
    if pat.isPrefixOf (c :: rest) then some 0 else (findSub pat rest).map (· + 1)

/-- Attempt to match `\\begin\{([a-zA-Z*]+)\}(.*?)\\end\{\1\}` (DOTALL) at the
current position.  Returns environment name, inner content and total length. -/
def matchEnvAt (cs : Str) : Option (Str × Str × Nat) :=
  if "\\begin\x7b".data.isPrefixOf cs then
    let r := cs.drop 7
    let name := r.takeWhile (fun c => isEnvNameChar c)
    if name = [] then none
    else match r.drop name.length with
      | '\x7d' :: r2 =>
        match findSub (endTag name) r2 with
        | some k => some (name, r2.take k, 7 + name.length + 1 + k + (endTag name).length)
        | none => none
      | _ => none
  else none

def envTypeOf (name : Str) : Str :=
  if name ∈ MATH_BLOCK_ENVS ∨ (name.filter (fun c => c ≠ '*')) ∈ MATH_BLOCK_ENVS then
    "equation".data
  else if name ∈ FIGURE_ENVS ∨ (name.filter (fun c => c ≠ '*')) ∈ FIGURE_ENVS then
    "figure".data
  else if name ∈ LIST_ENVS then "list".data
  else "environment".data

def extractEnvsGo : Nat → Str → Nat → List EnvSpan
  | 0, _, _ => []
  | f + 1, cs, pos =>
    match cs with
    | [] => []
    | c :: rest =>
      match matchEnvAt (c :: rest) with
      | some (name, content, len) =>
        { env_name := name, env_type := envTypeOf name, content := content,
          full_content := (c :: rest).take len, position := pos, endPos := pos + len }
          :: extractEnvsGo f ((c :: rest).drop len) (pos + len)
      | none => extractEnvsGo f rest (pos + 1)

/-- `HierarchyBuilder.extract_environments`.  The scan emits spans in
ascending position order, so the stable `sort` in `_process_content_block`
is the identity and is not repeated here. -/
def extractEnvironments (content : Str) : List EnvSpan :=
  extractEnvsGo (content.length + 1) content 0

/-! ### Item / sentence / paragraph splitting -/

/-- Prepend a character to the first part of a split-in-progress. -/
def mergeHead (c : Char) : List Str → List Str
  | [] => [[c]]
  | p :: ps => (c :: p) :: ps

/-- `re.split(r'\\item\s*', list_content)`. -/
def splitItemsGo : Nat → Str → List Str
  | 0, _ => [[]]
  | _ + 1, [] => [[]]
  | f + 1, c :: rest =>
    if "\\item".data.isPrefixOf (c :: rest) then
      [] :: splitItemsGo f (((c :: rest).drop 5).dropWhile (fun x => isPySpace x))
    else mergeHead c (splitItemsGo f rest)

/-- `HierarchyBuilder.extract_list_items`: split on `\item`, drop the text
before the first `\item`, strip each item and keep the non-empty ones. -/
def extractListItems (listContent : Str) : List Str :=
  match splitItemsGo (listContent.length + 1) listContent with
  | [] => []
  | _first :: parts => (parts.map stripChars).filter (fun p => p ≠ [])

/-- `re.split(r'\.\s+(?=[A-Z])', text)`: a split point is a period followed
by a whitespace run whose next character is an ASCII capital (the lookahead
is not consumed). -/
def splitSentGo : Nat → Str → List Str
  | 0, _ => [[]]
  | _ + 1, [] => [[]]
  | f + 1, c :: rest =>
    if c = '.' && (match rest with | w :: _ => isPySpace w | [] => false)
        && (match rest.dropWhile (fun x => isPySpace x) with
            | u :: _ => isUpperAZ u | [] => false) then
      [] :: splitSentGo f (rest.dropWhile (fun x => isPySpace x))
    else mergeHead c (splitSentGo f rest)

/-- `HierarchyBuilder.split_into_sentences`. -/
def splitIntoSentences (text : Str) : List Str :=
  (splitSentGo (text.length + 1) text).filterMap (fun sent =>
    let s := stripChars sent
    if s = [] then none
    else if s.getLast? = some '.' then some s else some (s ++ ['.']))

/-- `re.split(r'\n\n+', plain_text)`. -/
def splitParasGo : Nat → Str → List Str
  | 0, _ => [[]]
  | _ + 1, [] => [[]]
  | f + 1, c :: rest =>
    if c = '\n' && (match rest with | w :: _ => w = '\n' | [] => false) then
      [] :: splitParasGo f (rest.dropWhile (fun x => x = '\n'))
    else mergeHead c (splitParasGo f rest)

def splitParagraphs (text : Str) : List Str :=
  splitParasGo (text.length + 1) text

/-- `re.search(r'\\caption\{([^}]+)\}', ...)` at one position. -/
def matchCaptionAt (cs : Str) : Option Str :=
  if "\\caption\x7b".data.isPrefixOf cs then
    let r := cs.drop 9
    let t := r.takeWhile (fun c => c ≠ '\x7d')
    if t = [] then none
    else match r.drop t.length with
      | '\x7d' :: _ => some t
      | _ => none
  else none

def findCaption : Str → Option Str
  | [] => none
  | c :: rest =>
    match matchCaptionAt (c :: rest) with
    | some t => some t
    | none => findCaption rest

/-- One position of `re.search(r'\\(bibliography|bibliographystyle|begin\{thebibliography\})', ...)`. -/
def biblioAt : Str → Bool
  | '\\' :: rest =>
    "bibliography".data.isPrefixOf rest || "bibliographystyle".data.isPrefixOf rest ||
      "begin\x7bthebibliography\x7d".data.isPrefixOf rest
  | _ => false

def findBiblio : Str → Option Nat
  | [] => none
  | c :: rest => if biblioAt (c :: rest) then some 0 else (findBiblio rest).map (· + 1)

/-! ### Nodes and the hierarchy builder -/

/-- `HierarchyNode`.  The `children` list of the source is redundant with the
`parent_id` back-pointers (each `add_child` sets both) and is recovered as
`childrenOf`; nodes are kept in creation order in `Builder.all_nodes`. -/
structure Node where
  id : Str
  ntype : Str
  content : Str
  title : Str
  level : Nat
  parent_id : Option Str
  content_hash : Option Str
deriving DecidableEq

/-- `HierarchyNode.__init__`: the hash is computed only for non-empty content. -/
def mkNode (nodeId ntype content title : Str) (level : Nat) (parent : Option Str) : Node :=
  { id := nodeId, ntype := ntype, content := content, title := title, level := level,
    parent_id := parent,
    content_hash := if content ≠ [] then some (computeContentHash content) else none }

/-- `HierarchyBuilder` state: per-type counters (a `defaultdict(int)`) and
the `all_nodes` registry in insertion order (`id -> node`; generated ids are
pairwise distinct, see `buildHierarchy_ids_nodup`). -/
structure Builder where
  pub : Str
  ver : Str
  counter : List (Str × Nat)
  all_nodes : List Node
deriving DecidableEq

/-- `HierarchyBuilder._get_next_id`. -/
def getNextId (b : Builder) (t : Str) (parent : Option Str) : Str × Builder :=
  let idx := lookupD b.counter t 0 + 1
  (generateElementId b.pub b.ver t idx parent,
   { b with counter := insertA b.counter t idx })

/-- Create a content-bearing child node (equation/figure/list/item/paragraph/
sentence): fresh id scoped by the parent, level `parent.level + 1`, registered
in `all_nodes` and attached to the parent. -/
def addContentNode (b : Builder) (t : Str) (parent : Node) (content title : Str) :
    Builder × Node :=
  let (nid, b1) := getNextId b t (some parent.id)
  let node := mkNode nid t content title (parent.level + 1) (some parent.id)
  ({ b1 with all_nodes := b1.all_nodes ++ [node] }, node)

def processItems : Builder → Node → List Str → Builder
  | b, _, [] => b
  | b, listNode, item :: more =>
    processItems (addContentNode b "item".data listNode item []).1 listNode more

/-- The environment branch of `_process_content_block`. -/
def processEnv (b : Builder) (parent : Node) (env : EnvSpan) : Builder :=
  if env.env_type = "equation".data then
    (addContentNode b "equation".data parent env.full_content []).1
  else if env.env_type = "figure".data then
    let caption := (findCaption env.content).getD []
    (addContentNode b "figure".data parent env.full_content caption).1
  else if env.env_type = "list".data then
    let (b1, listNode) := addContentNode b "list".data parent env.full_content []
    processItems b1 listNode (extractListItems env.content)
  else b

def processEnvs : Builder → Node → List EnvSpan → Builder
  | b, _, [] => b
  | b, parent, e :: more => processEnvs (processEnv b parent e) parent more

def processSentences : Builder → Node → List Str → Builder
  | b, _, [] => b
  | b, para, s :: more =>
    if stripChars s ≠ [] then
      processSentences (addContentNode b "sentence".data para s []).1 para more
    else processSentences b para more

def processParagraph (b : Builder) (parent : Node) (paraText : Str) : Builder :=
  let pt := stripChars paraText
  if pt = [] then b
  else
    let (b1, paraNode) := addContentNode b "paragraph".data parent pt []
    processSentences b1 paraNode (splitIntoSentences pt)

def processParagraphs : Builder → Node → List Str → Builder
  | b, _, [] => b
  | b, parent, para :: more => processParagraphs (processParagraph b parent para) parent more

/-- Python string slicing `l[a:b]`. -/
def pySlice (l : Str) (a b : Nat) : Str := (l.drop a).take (b - a)

/-- The plain-text gap collection of `_process_content_block` (text between
and around environment spans). -/
def gapParts : Str → Nat → List EnvSpan → List Str
  | content, lastEnd, [] =>
    if lastEnd < content.length then [pySlice content lastEnd content.length] else []
  | content, lastEnd, e :: more =>
    if lastEnd < e.position then
      pySlice content lastEnd e.position :: gapParts content e.endPos more
    else gapParts content e.endPos more

/-- `' '.join(parts)`. -/
def joinSpace (parts : List Str) : Str := List.intercalate [' '] parts

/-- `HierarchyBuilder._process_content_block` (the `start_pos`/`end_pos`
parameters of the source are unused there and omitted). -/
def processContentBlock (b : Builder) (content : Str) (parent : Node) : Builder :=
  let envs := extractEnvironments content
  let b1 := processEnvs b parent envs
  let plainText := joinSpace (gapParts content 0 envs)
  if stripChars plainText ≠ [] then
    processParagraphs b1 parent (splitParagraphs plainText)
  else b1

/-- Pop the section stack while its top has `level ≥ lvl`, keeping at least
the root (the stack is kept top-first here). -/
def popStack : List Node → Nat → List Node
  | top :: s1 :: srest, lvl =>
    if lvl ≤ top.level then popStack (s1 :: srest) lvl else top :: s1 :: srest
  | stack, _ => stack

/-- `end_pos = references_start_pos if references_start_pos else len(body)`:
Python truthiness treats a boundary at offset 0 like `None`. -/
def truthyEnd (refPos : Option Nat) (len : Nat) : Nat :=
  match refPos with
  | some p => if p = 0 then len else p
  | none => len

/-- The end offset of a section content slice: the next retained section
start, or the (truthiness-guarded) references boundary, or end of body. -/
def nextEndPos (more : List SectionSpan) (refPos : Option Nat) (len : Nat) : Nat :=
  match more with
  | nxt :: _ => nxt.position
  | [] => truthyEnd refPos len

/-- The section loop of `build_hierarchy` over the filtered spans. -/
def buildSections : Builder → List Node → List SectionSpan → Str → Option Nat → Builder
  | b, _, [], _, _ => b
  | b, stack, s :: more, body, refPos =>
    let (sid, b1) := getNextId b "section".data none
    match popStack stack s.level with
    | [] => b1
    | parent :: stackRest =>
      let secNode := mkNode sid "section".data [] s.title s.level (some parent.id)
      let b2 := { b1 with all_nodes := b1.all_nodes ++ [secNode] }
      let endP := nextEndPos more refPos body.length
      let b3 := processContentBlock b2 (pySlice body s.endPos endP) secNode
      buildSections b3 (secNode :: parent :: stackRest) more body refPos

def rootIdOf (pub ver : Str) : Str := pub ++ '-' :: (ver ++ '-' :: "document".data)

/-- `HierarchyBuilder.build_hierarchy`, returning the final builder state
(the returned root is `all_nodes.head`). -/
def buildHierarchy (pub ver body : Str) : Builder :=
  let root := mkNode (rootIdOf pub ver) "document".data [] (pub ++ ' ' :: ver) 0 none
  let b0 : Builder := { pub := pub, ver := ver, counter := [], all_nodes := [root] }
  let sections := extractSections body
  let secRef := (sections.find? (fun s => s.is_references)).map (fun s => s.position)
  let filtered := sections.takeWhile (fun s => !s.is_references)
  let refPos :=
    match findBiblio body with
    | some bp =>
      match secRef with
      | none => some bp
      | some rp => some (if bp < rp then bp else rp)
    | none => secRef
  if filtered = [] then
    processContentBlock b0 (body.take (truthyEnd refPos body.length)) root
  else buildSections b0 [root] filtered body refPos

/-- Children of a node, recovered from the parent pointers in creation order. -/
def childrenOf (b : Builder) (n : Node) : List Node :=
  b.all_nodes.filter (fun m => m.parent_id = some n.id)

/-! ### Cross-version reconciler (`build_hierarchy_from_versions`) -/

def LEAF_TYPES : List Str := ["sentence".data, "equation".data, "figure".data, "item".data]

/-- The deduplication guard `node.content and node.content_hash and node.type in [...]`. -/
def dedupEligible (n : Node) : Bool :=
  n.content ≠ [] && n.content_hash.isSome && n.ntype ∈ LEAF_TYPES

/-- The `elements` payload for a node that is not deduplicated. -/
def elemPayload (n : Node) : Str :=
  if n.ntype ∈ LEAF_TYPES then (if n.content ≠ [] then n.content else n.title)
  else if n.ntype = "paragraph".data ∨ n.ntype = "list".data then
    (if n.content ≠ [] then n.content else [])
  else (if n.title ≠ [] then n.title else n.content)

/-- First collection loop of `build_hierarchy_from_versions`: elements,
`content_hash_to_id`, and the per-version `id_mapping`. -/
def recElemStep (st : List (Str × Str) × List (Str × Str) × List (Str × Str)) (n : Node) :
    List (Str × Str) × List (Str × Str) × List (Str × Str) :=
  let (els, h2i, im) := st
  if dedupEligible n then
    match n.content_hash with
    | some h =>
      match lookupA h2i h with
      | some cid => (els, h2i, insertA im n.id cid)
      | none => (insertA els n.id n.content, insertA h2i h n.id, insertA im n.id n.id)
    | none => (insertA els n.id (elemPayload n), h2i, insertA im n.id n.id)
  else (insertA els n.id (elemPayload n), h2i, insertA im n.id n.id)

def recElemLoop (st : List (Str × Str) × List (Str × Str) × List (Str × Str)) :
    List Node → List (Str × Str) × List (Str × Str) × List (Str × Str)
  | [] => st
  | n :: more => recElemLoop (recElemStep st n) more

/-- Second loop: `child_canonical -> parent_canonical` for every node with a
parent (dict assignment, so a repeated canonical child id overwrites). -/
def recHierStep (im : List (Str × Str)) (hier : List (Str × Str)) (n : Node) :
    List (Str × Str) :=
  match n.parent_id with
  | some pid => insertA hier (lookupD im n.id n.id) (lookupD im pid pid)
  | none => hier

def recHierLoop (im : List (Str × Str)) : List (Str × Str) → List Node → List (Str × Str)
  | hier, [] => hier
  | hier, n :: more => recHierLoop im (recHierStep im hier n) more

structure RecState where
  elements : List (Str × Str)
  hashToId : List (Str × Str)
  idMaps : List (Str × List (Str × Str))
  hierarchies : List (Str × List (Str × Str))
deriving DecidableEq

/-- One iteration of the version loop of `build_hierarchy_from_versions`
(the version's parsed data is its body text; an empty body is skipped). -/
def recVersion (pub : Str) (st : RecState) (vb : Str × Str) : RecState :=
  let (ver, body) := vb
  if body = [] then st
  else
    let b := buildHierarchy pub ver body
    let (els, h2i, im) := recElemLoop (st.elements, st.hashToId, []) b.all_nodes
    let hier := recHierLoop im [] b.all_nodes
    { elements := els, hashToId := h2i,
      idMaps := insertA st.idMaps ver im,
      hierarchies := insertA st.hierarchies ver hier }

def reconcileAux (pub : Str) (vs : List (Str × Str)) : RecState :=
  vs.foldl (recVersion pub) ⟨[], [], [], []⟩

structure RecOutput where
  elements : List (Str × Str)
  hierarchy : List (Str × List (Str × Str))
deriving DecidableEq

/-- `build_hierarchy_from_versions`: the persisted combined structure. -/
def buildHierarchyFromVersions (pub : Str) (vs : List (Str × Str)) : RecOutput :=
  let st := reconcileAux pub vs
  ⟨st.elements, st.hierarchies⟩

/-! ### Association list lemmas -/

theorem keysA_append {β : Type} (m1 m2 : List (Str × β)) :
    keysA (m1 ++ m2) = keysA m1 ++ keysA m2 := by
  simp [keysA]

theorem insertA_cons_ne {β : Type} (rest : List (Str × β)) (k0 k : Str) (v0 : β) (v : β)
    (h : ¬ k0 = k) : insertA ((k0, v0) :: rest) k v = (k0, v0) :: insertA rest k v := by
  rw [insertA, if_neg h]

theorem insertA_cons_eq {β : Type} (rest : List (Str × β)) (k : Str) (v0 : β) (v : β) :
    insertA ((k, v0) :: rest) k v = (k, v) :: rest := by
  rw [insertA, if_pos rfl]

theorem lookupA_cons_eq {β : Type} (rest : List (Str × β)) (k : Str) (v0 : β) :
    lookupA ((k, v0) :: rest) k = some v0 := by
  rw [lookupA, if_pos rfl]

theorem lookupA_cons_ne {β : Type} (rest : List (Str × β)) (k0 k : Str) (v0 : β)
    (h : ¬ k0 = k) : lookupA ((k0, v0) :: rest) k = lookupA rest k := by
  rw [lookupA, if_neg h]

theorem lookupA_insertA_self {β : Type} (m : List (Str × β)) (k : Str) (v : β) :
    lookupA (insertA m k v) k = some v := by
  induction m with
  | nil => rw [insertA, lookupA_cons_eq]
  | cons p rest ih =>
    obtain ⟨k0, v0⟩ := p
    by_cases h : k0 = k
    · subst h
      rw [insertA_cons_eq, lookupA_cons_eq]
    · rw [insertA_cons_ne _ _ _ _ _ h, lookupA_cons_ne _ _ _ _ h, ih]

theorem lookupA_insertA_ne {β : Type} (m : List (Str × β)) (k k2 : Str) (v : β)
    (h : k2 ≠ k) : lookupA (insertA m k v) k2 = lookupA m k2 := by
  induction m with
  | nil =>
    rw [insertA, lookupA_cons_ne _ _ _ _ (fun he => h he.symm), lookupA]
  | cons p rest ih =>
    obtain ⟨k0, v0⟩ := p
    by_cases h0 : k0 = k
    · subst h0
      rw [insertA_cons_eq, lookupA_cons_ne _ _ _ _ (fun he => h he.symm),
        lookupA_cons_ne _ _ _ _ (fun he => h he.symm)]
    · by_cases h1 : k0 = k2
      · subst h1
        rw [insertA_cons_ne _ _ _ _ _ h0, lookupA_cons_eq, lookupA_cons_eq]
      · rw [insertA_cons_ne _ _ _ _ _ h0, lookupA_cons_ne _ _ _ _ h1,
          lookupA_cons_ne _ _ _ _ h1, ih]

theorem keysA_insertA_of_mem {β : Type} (m : List (Str × β)) (k : Str) (v : β)
    (h : k ∈ keysA m) : keysA (insertA m k v) = keysA m := by
  induction m with
  | nil => simp [keysA] at h
  | cons p rest ih =>
    obtain ⟨k0, v0⟩ := p
    by_cases h0 : k0 = k
    · subst h0
      rw [insertA_cons_eq]
      rfl
    · rw [insertA_cons_ne _ _ _ _ _ h0]
      have hm : k ∈ keysA rest := by
        simp only [keysA, List.map_cons, List.mem_cons] at h
        rcases h with h | h
        · exact absurd h.symm h0
        · exact h
      show k0 :: keysA (insertA rest k v) = k0 :: keysA rest
      rw [ih hm]

theorem insertA_of_not_mem {β : Type} (m : List (Str × β)) (k : Str) (v : β)
    (h : k ∉ keysA m) : insertA m k v = m ++ [(k, v)] := by
  induction m with
  | nil => rfl
  | cons p rest ih =>
    obtain ⟨k0, v0⟩ := p
    simp only [keysA, List.map_cons, List.mem_cons, not_or] at h
    have h1 : ¬ k0 = k := fun he => h.1 he.symm
    rw [insertA_cons_ne _ _ _ _ _ h1, ih h.2, List.cons_append]

theorem mem_keysA_insertA {β : Type} (m : List (Str × β)) (k k2 : Str) (v : β) :
    k2 ∈ keysA (insertA m k v) ↔ k2 ∈ keysA m ∨ k2 = k := by
  by_cases hk : k ∈ keysA m
  · rw [keysA_insertA_of_mem m k v hk]
    constructor
    · exact Or.inl
    · rintro (h | h)
      · exact h
      · exact h ▸ hk
  · rw [insertA_of_not_mem m k v hk, keysA_append]
    show k2 ∈ keysA m ++ [k] ↔ _
    rw [List.mem_append, List.mem_singleton]

theorem lookupA_isSome_iff_mem {β : Type} (m : List (Str × β)) (k : Str) :
    (lookupA m k).isSome ↔ k ∈ keysA m := by
  induction m with
  | nil => simp [lookupA, keysA]
  | cons p rest ih =>
    obtain ⟨k0, v0⟩ := p
    by_cases h : k0 = k
    · subst h
      rw [lookupA_cons_eq]
      refine ⟨fun _ => ?_, fun _ => rfl⟩
      exact List.mem_cons_self _ _
    · rw [lookupA_cons_ne _ _ _ _ h, ih]
      simp only [keysA, List.map_cons, List.mem_cons]
      constructor
      · exact Or.inr
      · rintro (h2 | h2)
        · exact absurd h2.symm h
        · exact h2

theorem lookupA_eq_none_of_not_mem {β : Type} (m : List (Str × β)) (k : Str)
    (h : k ∉ keysA m) : lookupA m k = none := by
  have h2 := (lookupA_isSome_iff_mem m k).not.2 h
  cases he : lookupA m k with
  | none => rfl
  | some v => rw [he] at h2; simp at h2

theorem lookupA_mem {β : Type} (m : List (Str × β)) (k : Str) (v : β)
    (h : lookupA m k = some v) : (k, v) ∈ m := by
  induction m with
  | nil => simp [lookupA] at h
  | cons p rest ih =>
    obtain ⟨k0, v0⟩ := p
    by_cases h0 : k0 = k
    · subst h0
      rw [lookupA_cons_eq, Option.some.injEq] at h
      subst h
      exact List.mem_cons_self _ _
    · rw [lookupA_cons_ne _ _ _ _ h0] at h
      exact List.mem_cons_of_mem _ (ih h)

theorem mem_insertA {β : Type} (m : List (Str × β)) (k k2 : Str) (v v2 : β)
    (h : (k2, v2) ∈ insertA m k v) : (k2, v2) ∈ m ∨ (k2 = k ∧ v2 = v) := by
  induction m with
  | nil =>
    simp only [insertA, List.mem_singleton, Prod.mk.injEq] at h
    exact Or.inr h
  | cons p rest ih =>
    obtain ⟨k0, v0⟩ := p
    by_cases h0 : k0 = k
    · subst h0
      rw [insertA_cons_eq] at h
      rcases List.mem_cons.1 h with h | h
      · rw [Prod.mk.injEq] at h
        exact Or.inr h
      · exact Or.inl (List.mem_cons_of_mem _ h)
    · rw [insertA_cons_ne _ _ _ _ _ h0] at h
      rcases List.mem_cons.1 h with h | h
      · exact Or.inl (h ▸ List.mem_cons_self _ _)
      · rcases ih h with h2 | h2
        · exact Or.inl (List.mem_cons_of_mem _ h2)
        · exact Or.inr h2

/-! ### Decimal representation lemmas -/

def decodeDec : List Char → Nat :=
  List.foldl (fun a c => a * 10 + (c.toNat - 48)) 0

theorem decodeDec_go (l : List Char) (a : Nat) :
    List.foldl (fun a c => a * 10 + (c.toNat - 48)) a l =
      a * 10 ^ l.length + decodeDec l := by
  induction l generalizing a with
  | nil => simp [decodeDec]
  | cons c rest ih =>
    simp only [List.foldl_cons, decodeDec, pow_succ, List.length_cons]
    rw [ih, ih (0 * 10 + (c.toNat - 48))]
    ring

theorem digitChar10_toNat (n : Nat) (h : n < 10) : (digitChar10 n).toNat = 48 + n := by
  interval_cases n <;> decide

theorem natDecGo_decode (f n : Nat) (h : n < f) : decodeDec (natDecGo f n) = n := by
  induction f generalizing n with
  | zero => omega
  | succ f ih =>
    by_cases h10 : n < 10
    · simp [natDecGo, h10, decodeDec, digitChar10_toNat n h10]
    · have hd : n / 10 < f := by omega
      simp only [natDecGo, if_neg h10, decodeDec]
      rw [List.foldl_append]
      have := decodeDec_go (natDecGo f (n / 10)) 0
      simp only [List.foldl_cons, List.foldl_nil]
      rw [show List.foldl (fun a c => a * 10 + (c.toNat - 48)) 0 (natDecGo f (n / 10)) =
        decodeDec (natDecGo f (n / 10)) from rfl]
      rw [ih _ hd, digitChar10_toNat _ (Nat.mod_lt n (by omega))]
      omega

theorem natDecimal_decode (n : Nat) : decodeDec (natDecimal n) = n :=
  natDecGo_decode (n + 1) n (Nat.lt_succ_self n)

theorem natDecimal_inj (m n : Nat) (h : natDecimal m = natDecimal n) : m = n := by
  have := natDecimal_decode m
  rw [h, natDecimal_decode] at this
  omega

theorem natDecGo_digits (f n : Nat) : ∀ c ∈ natDecGo f n, isDigitCh c = true := by
  induction f generalizing n with
  | zero => simp [natDecGo]
  | succ f ih =>
    intro c hc
    by_cases h10 : n < 10
    · simp [natDecGo, h10] at hc
      subst hc
      unfold isDigitCh digitChar10
      interval_cases n <;> decide
    · simp only [natDecGo, if_neg h10, List.mem_append, List.mem_singleton] at hc
      rcases hc with hc | hc
      · exact ih _ c hc
      · subst hc
        unfold isDigitCh digitChar10
        have : n % 10 < 10 := Nat.mod_lt n (by omega)
        interval_cases h : (n % 10) <;> decide

theorem natDecimal_digits (n : Nat) : ∀ c ∈ natDecimal n, isDigitCh c = true :=
  natDecGo_digits (n + 1) n

theorem natDecGo_ne_nil (f n : Nat) (h : n < f) : natDecGo f n ≠ [] := by
  cases f with
  | zero => omega
  | succ f =>
    by_cases h10 : n < 10 <;> simp [natDecGo, h10]

theorem natDecimal_ne_nil (n : Nat) : natDecimal n ≠ [] :=
  natDecGo_ne_nil (n + 1) n (Nat.lt_succ_self n)

theorem natDecimal_no_dash (n : Nat) : ∀ c ∈ natDecimal n, c ≠ '-' := by
  intro c hc
  have := natDecimal_digits n c hc
  intro he
  subst he
  simp [isDigitCh] at this

/-! ### takeWhile / dash-structure lemmas for identifier strings -/

theorem twAppend (p : Char → Bool) (u v : Str) (h : ∀ c ∈ u, p c = true) :
    (u ++ v).takeWhile p = u ++ v.takeWhile p := by
  induction u with
  | nil => simp
  | cons c u ih =>
    have hc : p c = true := h c (List.mem_cons_self _ _)
    simp only [List.cons_append, List.takeWhile_cons, hc, if_true]
    rw [ih (fun x hx => h x (List.mem_cons_of_mem _ hx))]

/-- The maximal dashless suffix of a string (reverse `takeWhile`). -/
def dsuffix (l : Str) : Str := (l.reverse.takeWhile (fun c => c ≠ '-')).reverse

theorem dsuffix_append (x y : Str) (hy : ∀ c ∈ y, c ≠ '-') :
    dsuffix (x ++ '-' :: y) = y := by
  unfold dsuffix
  rw [List.reverse_append, List.reverse_cons]
  rw [List.append_assoc]
  rw [twAppend _ _ _ (fun c hc => by
    have := hy c (List.mem_reverse.1 hc)
    simpa using this)]
  have : (['-'] ++ x.reverse).takeWhile (fun c => decide (c ≠ '-')) = [] := by
    simp [List.takeWhile_cons]
  rw [this, List.append_nil, List.reverse_reverse]

theorem sufParse (a b t1 t2 : Str) (k1 k2 : Nat)
    (ht1 : ∀ c ∈ t1, c ≠ '-') (ht2 : ∀ c ∈ t2, c ≠ '-')
    (h : a ++ '-' :: (t1 ++ '-' :: natDecimal k1) = b ++ '-' :: (t2 ++ '-' :: natDecimal k2)) :
    a = b ∧ t1 = t2 ∧ k1 = k2 := by
  have hk : natDecimal k1 = natDecimal k2 := by
    have h1 := dsuffix_append (a ++ '-' :: t1) (natDecimal k1) (natDecimal_no_dash k1)
    have h2 := dsuffix_append (b ++ '-' :: t2) (natDecimal k2) (natDecimal_no_dash k2)
    have hrw1 : a ++ '-' :: (t1 ++ '-' :: natDecimal k1) =
        (a ++ '-' :: t1) ++ '-' :: natDecimal k1 := by simp
    have hrw2 : b ++ '-' :: (t2 ++ '-' :: natDecimal k2) =
        (b ++ '-' :: t2) ++ '-' :: natDecimal k2 := by simp
    rw [hrw1, hrw2] at h
    rw [← h1, ← h2, h]
  have hkk : k1 = k2 := natDecimal_inj _ _ hk
  subst hkk
  have hrw1 : a ++ '-' :: (t1 ++ '-' :: natDecimal k1) =
      (a ++ '-' :: t1) ++ '-' :: natDecimal k1 := by simp
  have hrw2 : b ++ '-' :: (t2 ++ '-' :: natDecimal k1) =
      (b ++ '-' :: t2) ++ '-' :: natDecimal k1 := by simp
  rw [hrw1, hrw2] at h
  have h3 : a ++ '-' :: t1 = b ++ '-' :: t2 := List.append_cancel_right h
  have ht : t1 = t2 := by
    have h4 := dsuffix_append a t1 ht1
    have h5 := dsuffix_append b t2 ht2
    rw [← h4, ← h5, h3]
  subst ht
  refine ⟨?_, rfl, rfl⟩
  have h6 : (a ++ ['-']) ++ t1 = (b ++ ['-']) ++ t1 := by
    simpa using h3
  have h7 := List.append_cancel_right h6
  exact List.append_cancel_right h7

/-! ### Last-character lemmas -/

/-- The last character of the string is a decimal digit. -/
def digitLast (l : Str) : Prop := ∃ c, l.getLast? = some c ∧ isDigitCh c = true

theorem getLast?_append_ne_nil (l1 l2 : Str) (h : l2 ≠ []) :
    (l1 ++ l2).getLast? = l2.getLast? := by
  induction l1 with
  | nil => rfl
  | cons c l1 ih =>
    rw [List.cons_append, List.getLast?_cons, ih]
    cases l2 with
    | nil => exact absurd rfl h
    | cons d l2 =>
      cases l1 with
      | nil => simp [List.getLast?_cons]
      | cons e l1 => simp [List.getLast?_cons]

theorem natDecimal_digitLast (k : Nat) : digitLast (natDecimal k) := by
  cases he : (natDecimal k).getLast? with
  | none =>
    rw [List.getLast?_eq_none_iff] at he
    exact absurd he (natDecimal_ne_nil k)
  | some c =>
    refine ⟨c, he, ?_⟩
    have hx : c ∈ (natDecimal k).getLast? := by rw [he]; rfl
    obtain ⟨hne, hcl⟩ := List.mem_getLast?_eq_getLast hx
    rw [hcl]
    exact natDecimal_digits k _ (List.getLast_mem hne)

theorem digitLast_append (p : Str) (z : Str) (h : digitLast z) : digitLast (p ++ z) := by
  obtain ⟨c, hc, hd⟩ := h
  have hz : z ≠ [] := by
    intro he
    subst he
    simp at hc
  exact ⟨c, by rw [getLast?_append_ne_nil _ _ hz, hc], hd⟩

theorem genid_digitLast (p t : Str) (k : Nat) :
    digitLast (p ++ '-' :: (t ++ '-' :: natDecimal k)) := by
  have h1 : digitLast ('-' :: (t ++ '-' :: natDecimal k)) := by
    have h2 : digitLast (t ++ '-' :: natDecimal k) := by
      have h3 : digitLast ('-' :: natDecimal k) := by
        obtain ⟨c, hc, hd⟩ := natDecimal_digitLast k
        refine ⟨c, ?_, hd⟩
        have : ('-' :: natDecimal k) = ['-'] ++ natDecimal k := rfl
        rw [this, getLast?_append_ne_nil _ _ (natDecimal_ne_nil k), hc]
      obtain ⟨c, hc, hd⟩ := h3
      exact digitLast_append t ('-' :: natDecimal k) ⟨c, hc, hd⟩
    obtain ⟨c, hc, hd⟩ := h2
    refine ⟨c, ?_, hd⟩
    have : ('-' :: (t ++ '-' :: natDecimal k)) = ['-'] ++ (t ++ '-' :: natDecimal k) := rfl
    rw [this, getLast?_append_ne_nil _ _ ?hne, hc]
    case hne =>
      intro he
      have : ('-' : Char) ∈ t ++ '-' :: natDecimal k :=
        List.mem_append.2 (Or.inr (List.mem_cons_self _ _))
      rw [he] at this
      simp at this
  exact digitLast_append p _ h1

theorem getLast?_cons_ne_nil (c : Char) (x : Str) (h : x ≠ []) :
    (c :: x).getLast? = x.getLast? := by
  have h1 : (c :: x) = [c] ++ x := rfl
  rw [h1, getLast?_append_ne_nil _ _ h]

theorem rootId_getLast (pub ver : Str) : (rootIdOf pub ver).getLast? = some 't' := by
  unfold rootIdOf
  rw [getLast?_append_ne_nil _ _ (by simp),
    getLast?_cons_ne_nil _ _ (by simp),
    getLast?_append_ne_nil _ _ (by simp),
    getLast?_cons_ne_nil _ _ (by decide)]
  decide

theorem rootId_not_digitLast (pub ver : Str) : ¬ digitLast (rootIdOf pub ver) := by
  rintro ⟨c, hc, hd⟩
  rw [rootId_getLast] at hc
  rw [Option.some.injEq] at hc
  subst hc
  simp [isDigitCh] at hd

/-! ### Token structure of generated identifier tails -/

def CHILD_TYPES : List Str :=
  ["paragraph".data, "sentence".data, "equation".data, "figure".data,
   "list".data, "item".data]

/-- The shape of the part of a generated id following `pub-ver-`: the root's
`document`, a top-level `section-k`, or a child id suffix chaining a child
type and a counter index onto its parent's tail. -/
inductive GoodRest : Str → Prop
  | doc : GoodRest ("document".data)
  | sec (k : Nat) : GoodRest ("section".data ++ '-' :: natDecimal k)
  | child (r t : Str) (k : Nat) : GoodRest r → t ∈ CHILD_TYPES →
      GoodRest (r ++ '-' :: (t ++ '-' :: natDecimal k))

def startTok (l : Str) : Str := l.takeWhile (fun c => c ≠ '-')

theorem startTok_cons_dash (l : Str) : startTok ('-' :: l) = [] := by
  simp [startTok, List.takeWhile_cons]

theorem startTok_cons_ne (c : Char) (l : Str) (hc : c ≠ '-') :
    startTok (c :: l) = c :: startTok l := by
  simp [startTok, List.takeWhile_cons, hc]

theorem startTok_append_dash (u z : Str) : startTok (u ++ '-' :: z) = startTok u := by
  induction u with
  | nil =>
    rw [List.nil_append, startTok_cons_dash]
    rfl
  | cons c u ih =>
    by_cases hc : c = '-'
    · subst hc
      rw [List.cons_append, startTok_cons_dash, startTok_cons_dash]
    · rw [List.cons_append, startTok_cons_ne _ _ hc, startTok_cons_ne _ _ hc, ih]

theorem startTok_all (l : Str) (h : ∀ c ∈ l, c ≠ '-') : startTok l = l := by
  induction l with
  | nil => rfl
  | cons c l ih =>
    rw [startTok_cons_ne _ _ (h c (List.mem_cons_self _ _)),
      ih (fun x hx => h x (List.mem_cons_of_mem _ hx))]

theorem GoodRest_startTok (r : Str) (h : GoodRest r) :
    startTok r = "document".data ∨ startTok r = "section".data := by
  induction h with
  | doc => exact Or.inl (by decide)
  | sec k =>
    right
    rw [startTok_append_dash]
    decide
  | child r t k hr ht ih =>
    rw [startTok_append_dash]
    exact ih

/-- Split a string at a dash, given that the text before the first known dash
is dashless: the split either coincides or moves past it. -/
theorem splitDash (a b w y : Str) (h : a ++ '-' :: b = w ++ '-' :: y)
    (ha : ∀ c ∈ a, c ≠ '-') :
    (w = a ∧ y = b) ∨ (∃ u, w = a ++ '-' :: u ∧ b = u ++ '-' :: y) := by
  rcases List.append_eq_append_iff.1 h with ⟨a2, hw, he⟩ | ⟨c2, hac, he⟩
  · cases a2 with
    | nil =>
      rw [List.append_nil] at hw
      rw [List.nil_append] at he
      rw [List.cons.injEq] at he
      exact Or.inl ⟨hw, he.2.symm⟩
    | cons c u =>
      rw [List.cons_append, List.cons.injEq] at he
      obtain ⟨hc, hb⟩ := he
      subst hc
      exact Or.inr ⟨u, hw, hb⟩
  · cases c2 with
    | nil =>
      rw [List.append_nil] at hac
      rw [List.nil_append] at he
      rw [List.cons.injEq] at he
      exact Or.inl ⟨hac.symm, he.2⟩
    | cons c u =>
      rw [List.cons_append, List.cons.injEq] at he
      obtain ⟨hc, _⟩ := he
      subst hc
      exfalso
      exact ha '-' (hac ▸ List.mem_append.2 (Or.inr (List.mem_cons_self _ _))) rfl

theorem digits_ne_marker (y : Str) (h : ∀ c ∈ y, isDigitCh c = true) :
    y ≠ "document".data ∧ y ≠ "section".data := by
  constructor
  · intro he
    subst he
    have := h 'd' (by decide)
    simp [isDigitCh] at this
  · intro he
    subst he
    have := h 's' (by decide)
    simp [isDigitCh] at this

theorem childType_no_dash (t : Str) (ht : t ∈ CHILD_TYPES) : ∀ c ∈ t, c ≠ '-' := by
  fin_cases ht <;> decide

theorem childType_ne_marker (t : Str) (ht : t ∈ CHILD_TYPES) :
    t ≠ "document".data ∧ t ≠ "section".data := by
  fin_cases ht <;> decide

theorem GoodRest_no_marker_suffix (r : Str) (hr : GoodRest r) :
    ∀ w y, r = w ++ '-' :: y →
      startTok y ≠ "document".data ∧ startTok y ≠ "section".data := by
  induction hr with
  | doc =>
    intro w y h
    exfalso
    have : ('-' : Char) ∈ "document".data := by
      rw [h]
      exact List.mem_append.2 (Or.inr (List.mem_cons_self _ _))
    revert this
    decide
  | sec k =>
    intro w y h
    rcases splitDash _ _ _ _ h (by decide) with ⟨_, hy⟩ | ⟨u, _, hb⟩
    · subst hy
      rw [startTok_all _ (natDecimal_no_dash k)]
      exact digits_ne_marker _ (natDecimal_digits k)
    · exfalso
      exact natDecimal_no_dash k '-'
        (hb ▸ List.mem_append.2 (Or.inr (List.mem_cons_self _ _))) rfl
  | child r t k hgr ht ih =>
    intro w y h
    have hcore : ∀ y2, y2 = t ++ '-' :: natDecimal k →
        startTok y2 ≠ "document".data ∧ startTok y2 ≠ "section".data := by
      intro y2 hy2
      subst hy2
      rw [startTok_append_dash, startTok_all _ (childType_no_dash t ht)]
      exact childType_ne_marker t ht
    rcases List.append_eq_append_iff.1 h with ⟨a2, hw, he⟩ | ⟨c2, hac, he⟩
    · cases a2 with
      | nil =>
        rw [List.nil_append, List.cons.injEq] at he
        exact hcore y he.2.symm
      | cons c u =>
        rw [List.cons_append, List.cons.injEq] at he
        obtain ⟨hc, hb⟩ := he
        subst hc
        rcases splitDash _ _ _ _ hb (childType_no_dash t ht) with ⟨_, hy⟩ | ⟨u2, _, hb2⟩
        · subst hy
          rw [startTok_all _ (natDecimal_no_dash k)]
          exact digits_ne_marker _ (natDecimal_digits k)
        · exfalso
          exact natDecimal_no_dash k '-'
            (hb2 ▸ List.mem_append.2 (Or.inr (List.mem_cons_self _ _))) rfl
    · cases c2 with
      | nil =>
        rw [List.nil_append] at he
        rw [List.cons.injEq] at he
        exact hcore y he.2
      | cons c u =>
        rw [List.cons_append, List.cons.injEq] at he
        obtain ⟨hc, hy⟩ := he
        subst hc
        have := ih w u hac
        rw [hy, startTok_append_dash]
        exact this

theorem GoodRest_not_extend (r1 r2 : Str) (h1 : GoodRest r1) (h2 : GoodRest r2)
    (w : Str) : r1 ≠ w ++ '-' :: r2 := by
  intro he
  have hmark := GoodRest_startTok r2 h2
  have hno := GoodRest_no_marker_suffix r1 h1 w r2 he
  rcases hmark with h | h
  · exact hno.1 h
  · exact hno.2 h

/-- Identifiers of distinct versions never coincide. -/
theorem crossVersion_ne (pub v1 v2 r1 r2 : Str) (hv : v1 ≠ v2)
    (h1 : GoodRest r1) (h2 : GoodRest r2) :
    pub ++ '-' :: (v1 ++ '-' :: r1) ≠ pub ++ '-' :: (v2 ++ '-' :: r2) := by
  intro he
  have he2 : v1 ++ '-' :: r1 = v2 ++ '-' :: r2 := by
    have := List.append_cancel_left he
    rw [List.cons.injEq] at this
    exact this.2
  rcases List.append_eq_append_iff.1 he2 with ⟨a2, hw, he3⟩ | ⟨c2, hac, he3⟩
  · cases a2 with
    | nil =>
      rw [List.append_nil] at hw
      exact hv hw.symm
    | cons c u =>
      rw [List.cons_append, List.cons.injEq] at he3
      obtain ⟨hc, hb⟩ := he3
      subst hc
      exact GoodRest_not_extend r1 r2 h1 h2 u hb
  · cases c2 with
    | nil =>
      rw [List.append_nil] at hac
      exact hv hac
    | cons c u =>
      rw [List.cons_append, List.cons.injEq] at he3
      obtain ⟨hc, hb⟩ := he3
      subst hc
      exact GoodRest_not_extend r2 r1 h2 h1 u hb

/-! ### Builder invariant -/

def STRUCT_TYPES : List Str :=
  ["document".data, "section".data, "paragraph".data, "list".data]

def GEN_TYPES : List Str :=
  ["section".data, "paragraph".data, "sentence".data, "equation".data, "figure".data,
   "list".data, "item".data]

/-- The root node as constructed by `build_hierarchy`. -/
def mkRoot (pub ver : Str) : Node :=
  mkNode (rootIdOf pub ver) "document".data [] (pub ++ ' ' :: ver) 0 none

/-- Shape of a generated (non-root) node id: `prefix-type-index` with the
index within the current counter bound, and `pub-ver-rest` with a
well-formed rest. -/
def idShape (pub ver : Str) (counter : List (Str × Nat)) (n : Node) : Prop :=
  (∃ p k, n.id = p ++ '-' :: (n.ntype ++ '-' :: natDecimal k) ∧ 1 ≤ k ∧
    k ≤ lookupD counter n.ntype 0) ∧
  ∃ r, n.id = pub ++ '-' :: (ver ++ '-' :: r) ∧ GoodRest r

def nodeOK (b : Builder) (n : Node) : Prop :=
  idShape b.pub b.ver b.counter n ∧ n.ntype ∈ GEN_TYPES ∧
  ∃ pid, n.parent_id = some pid ∧ ∃ m ∈ b.all_nodes, m.id = pid ∧ m.ntype ∈ STRUCT_TYPES

def BInv (b : Builder) : Prop :=
  (∃ rest, b.all_nodes = mkRoot b.pub b.ver :: rest ∧ ∀ n ∈ rest, nodeOK b n) ∧
  (b.all_nodes.map Node.id).Nodup

def counterLE (c1 c2 : List (Str × Nat)) : Prop :=
  ∀ t, lookupD c1 t 0 ≤ lookupD c2 t 0

def BStep (b b2 : Builder) : Prop :=
  b2.pub = b.pub ∧ b2.ver = b.ver ∧ (∃ new, b2.all_nodes = b.all_nodes ++ new) ∧
    counterLE b.counter b2.counter

theorem BStep_refl (b : Builder) : BStep b b :=
  ⟨rfl, rfl, ⟨[], by simp⟩, fun _ => le_refl _⟩

theorem BStep_trans {b1 b2 b3 : Builder} (h1 : BStep b1 b2) (h2 : BStep b2 b3) :
    BStep b1 b3 := by
  obtain ⟨hp1, hv1, ⟨n1, hn1⟩, hc1⟩ := h1
  obtain ⟨hp2, hv2, ⟨n2, hn2⟩, hc2⟩ := h2
  exact ⟨hp2.trans hp1, hv2.trans hv1, ⟨n1 ++ n2, by rw [hn2, hn1, List.append_assoc]⟩,
    fun t => le_trans (hc1 t) (hc2 t)⟩

theorem BStep_mem {b b2 : Builder} (h : BStep b b2) {n : Node} (hn : n ∈ b.all_nodes) :
    n ∈ b2.all_nodes := by
  obtain ⟨_, _, ⟨new, hnew⟩, _⟩ := h
  rw [hnew]
  exact List.mem_append_left _ hn

theorem genType_no_dash (t : Str) (ht : t ∈ GEN_TYPES) : ∀ c ∈ t, c ≠ '-' := by
  fin_cases ht <;> decide

theorem childType_mem_gen (t : Str) (ht : t ∈ CHILD_TYPES) : t ∈ GEN_TYPES := by
  fin_cases ht <;> decide

theorem getNextId_counter_self (b : Builder) (t : Str) (p : Option Str) :
    lookupD (getNextId b t p).2.counter t 0 = lookupD b.counter t 0 + 1 := by
  simp [getNextId, lookupD, lookupA_insertA_self]

theorem getNextId_counter_ne (b : Builder) (t : Str) (p : Option Str) (t2 : Str)
    (h : t2 ≠ t) : lookupD (getNextId b t p).2.counter t2 0 = lookupD b.counter t2 0 := by
  simp [getNextId, lookupD, lookupA_insertA_ne _ _ _ _ h]

theorem getNextId_counterLE (b : Builder) (t : Str) (p : Option Str) :
    counterLE b.counter (getNextId b t p).2.counter := by
  intro t2
  by_cases h : t2 = t
  · subst h
    rw [getNextId_counter_self]
    omega
  · rw [getNextId_counter_ne _ _ _ _ h]

/-- Analogue of `pub-ver-rest` decomposition for any registered node. -/
theorem BInv_decomp {b : Builder} (hb : BInv b) {n : Node} (hn : n ∈ b.all_nodes) :
    ∃ r, n.id = b.pub ++ '-' :: (b.ver ++ '-' :: r) ∧ GoodRest r := by
  obtain ⟨⟨rest, hrest, hall⟩, _⟩ := hb
  rw [hrest] at hn
  rcases List.mem_cons.1 hn with h | h
  · subst h
    exact ⟨"document".data, rfl, GoodRest.doc⟩
  · exact ((hall n h).1).2

theorem id_append_assoc (x y r z : Str) :
    (x ++ '-' :: (y ++ '-' :: r)) ++ z = x ++ '-' :: (y ++ '-' :: (r ++ z)) := by
  simp

/-- A freshly generated id differs from every id already registered. -/
theorem fresh_id {b : Builder} (hb : BInv b) (t P : Str) (ht : t ∈ GEN_TYPES) :
    ∀ n ∈ b.all_nodes, n.id ≠ P ++ '-' :: (t ++ '-' :: natDecimal (lookupD b.counter t 0 + 1)) := by
  obtain ⟨⟨rest, hrest, hall⟩, _⟩ := hb
  intro n hn he
  rw [hrest] at hn
  rcases List.mem_cons.1 hn with h | h
  · subst h
    have hroot := rootId_getLast b.pub b.ver
    have hdl := genid_digitLast P t (lookupD b.counter t 0 + 1)
    obtain ⟨c, hc, hd⟩ := hdl
    have : (mkRoot b.pub b.ver).id = rootIdOf b.pub b.ver := rfl
    rw [this] at he
    rw [he, hc] at hroot
    rw [Option.some.injEq] at hroot
    subst hroot
    simp [isDigitCh] at hd
  · obtain ⟨⟨p, k, hid, hk1, hk2⟩, _⟩ := (hall n h).1
    have hgen := (hall n h).2.1
    rw [hid] at he
    obtain ⟨_, hteq, hkeq⟩ :=
      sufParse p P n.ntype t k (lookupD b.counter t 0 + 1)
        (genType_no_dash _ hgen) (genType_no_dash _ ht) he
    rw [hteq] at hk2
    omega

/-- Central preservation step: appending one well-shaped fresh node. -/
theorem BInv_append {b c : Builder} (node : Node)
    (hpub : c.pub = b.pub) (hver : c.ver = b.ver)
    (hnodes : c.all_nodes = b.all_nodes ++ [node])
    (hb : BInv b) (hcmono : counterLE b.counter c.counter)
    (hshape : idShape b.pub b.ver c.counter node) (hgen : node.ntype ∈ GEN_TYPES)
    (hparent : ∃ pid, node.parent_id = some pid ∧
      ∃ m ∈ b.all_nodes, m.id = pid ∧ m.ntype ∈ STRUCT_TYPES)
    (hfresh : ∀ n ∈ b.all_nodes, n.id ≠ node.id) :
    BInv c := by
  obtain ⟨⟨rest, hrest, hall⟩, hnodup⟩ := hb
  constructor
  · refine ⟨rest ++ [node], ?_, ?_⟩
    · rw [hnodes, hrest, hpub, hver, List.cons_append]
    · intro n hn
      rcases List.mem_append.1 hn with h | h
      · obtain ⟨⟨⟨p, k, hid, hk1, hk2⟩, hr⟩, hg, pid, hpid, m, hm, hmid, hms⟩ := hall n h
        refine ⟨⟨⟨p, k, hid, hk1, le_trans hk2 (hcmono n.ntype)⟩, ?_⟩, hg,
          pid, hpid, m, ?_, hmid, hms⟩
        · rw [hpub, hver]
          exact hr
        · rw [hnodes]
          exact List.mem_append_left _ hm
      · rw [List.mem_singleton] at h
        subst h
        obtain ⟨pid, hpid, m, hm, hmid, hms⟩ := hparent
        refine ⟨⟨hshape.1, ?_⟩, hgen, pid, hpid, m, ?_, hmid, hms⟩
        · rw [hpub, hver]
          exact hshape.2
        · rw [hnodes]
          exact List.mem_append_left _ hm
  · rw [hnodes, List.map_append]
    refine List.Nodup.append hnodup (by simp) ?_
    intro a ha hb2
    simp only [List.map_cons, List.map_nil, List.mem_singleton] at hb2
    subst hb2
    obtain ⟨n, hn, hna⟩ := List.mem_map.1 ha
    exact hfresh n hn hna

/-- `addContentNode` preserves the invariant and extends the state. -/
theorem addContentNode_ok (b : Builder) (t : Str) (parent : Node) (content title : Str)
    (hb : BInv b) (hp : parent ∈ b.all_nodes) (hps : parent.ntype ∈ STRUCT_TYPES)
    (ht : t ∈ CHILD_TYPES) :
    BInv (addContentNode b t parent content title).1 ∧
    BStep b (addContentNode b t parent content title).1 ∧
    (addContentNode b t parent content title).2 ∈
      (addContentNode b t parent content title).1.all_nodes ∧
    (addContentNode b t parent content title).2.ntype = t ∧
    (addContentNode b t parent content title).2.parent_id = some parent.id := by
  have hgen := childType_mem_gen t ht
  set K := lookupD b.counter t 0 with hK
  have hstep : BStep b (addContentNode b t parent content title).1 := by
    refine ⟨rfl, rfl, ⟨[(addContentNode b t parent content title).2], rfl⟩, ?_⟩
    exact getNextId_counterLE b t (some parent.id)
  refine ⟨?_, hstep, ?_, rfl, rfl⟩
  · refine BInv_append (b := b) (c := (addContentNode b t parent content title).1)
      (addContentNode b t parent content title).2 rfl rfl rfl hb
      (getNextId_counterLE b t (some parent.id)) ?_ hgen ?_ ?_
    · constructor
      · refine ⟨parent.id, K + 1, rfl, by omega, ?_⟩
        show K + 1 ≤ lookupD (getNextId b t (some parent.id)).2.counter t 0
        rw [getNextId_counter_self]
      · obtain ⟨rp, hidp, hgr⟩ := BInv_decomp hb hp
        refine ⟨rp ++ '-' :: (t ++ '-' :: natDecimal (K + 1)), ?_,
          GoodRest.child rp t (K + 1) hgr ht⟩
        show parent.id ++ '-' :: (t ++ '-' :: natDecimal (K + 1)) = _
        rw [hidp, id_append_assoc]
    · exact ⟨parent.id, rfl, parent, hp, rfl, hps⟩
    · exact fresh_id hb t parent.id hgen
  · show _ ∈ b.all_nodes ++ [(addContentNode b t parent content title).2]
    exact List.mem_append_right _ (List.mem_singleton.2 rfl)

theorem processItems_ok (items : List Str) (b : Builder) (listNode : Node)
    (hb : BInv b) (hp : listNode ∈ b.all_nodes) (hps : listNode.ntype ∈ STRUCT_TYPES) :
    BInv (processItems b listNode items) ∧ BStep b (processItems b listNode items) := by
  induction items generalizing b with
  | nil => exact ⟨hb, BStep_refl b⟩
  | cons item more ih =>
    have h1 := addContentNode_ok b "item".data listNode item [] hb hp hps (by decide)
    obtain ⟨hb1, hs1, _, _, _⟩ := h1
    have h2 := ih (addContentNode b "item".data listNode item []).1 hb1
      (BStep_mem hs1 hp)
    exact ⟨h2.1, BStep_trans hs1 h2.2⟩

theorem processEnv_ok (b : Builder) (parent : Node) (env : EnvSpan)
    (hb : BInv b) (hp : parent ∈ b.all_nodes) (hps : parent.ntype ∈ STRUCT_TYPES) :
    BInv (processEnv b parent env) ∧ BStep b (processEnv b parent env) := by
  unfold processEnv
  by_cases h1 : env.env_type = "equation".data
  · simp only [h1, if_pos rfl]
    have h := addContentNode_ok b "equation".data parent env.full_content [] hb hp hps
      (by decide)
    exact ⟨h.1, h.2.1⟩
  · rw [if_neg h1]
    by_cases h2 : env.env_type = "figure".data
    · rw [if_pos h2]
      have h := addContentNode_ok b "figure".data parent env.full_content
        ((findCaption env.content).getD []) hb hp hps (by decide)
      exact ⟨h.1, h.2.1⟩
    · rw [if_neg h2]
      by_cases h3 : env.env_type = "list".data
      · rw [if_pos h3]
        have h := addContentNode_ok b "list".data parent env.full_content [] hb hp hps
          (by decide)
        obtain ⟨hb1, hs1, hmem, hty, _⟩ := h
        have hstruct : (addContentNode b "list".data parent env.full_content []).2.ntype ∈
            STRUCT_TYPES := by
          rw [hty]
          decide
        have h2 := processItems_ok (extractListItems env.content) _ _ hb1 hmem hstruct
        exact ⟨h2.1, BStep_trans hs1 h2.2⟩
      · rw [if_neg h3]
        exact ⟨hb, BStep_refl b⟩

theorem processEnvs_ok (envs : List EnvSpan) (b : Builder) (parent : Node)
    (hb : BInv b) (hp : parent ∈ b.all_nodes) (hps : parent.ntype ∈ STRUCT_TYPES) :
    BInv (processEnvs b parent envs) ∧ BStep b (processEnvs b parent envs) := by
  induction envs generalizing b with
  | nil => exact ⟨hb, BStep_refl b⟩
  | cons e more ih =>
    have h1 := processEnv_ok b parent e hb hp hps
    have h2 := ih (processEnv b parent e) h1.1 (BStep_mem h1.2 hp)
    exact ⟨h2.1, BStep_trans h1.2 h2.2⟩

theorem processSentences_ok (sents : List Str) (b : Builder) (para : Node)
    (hb : BInv b) (hp : para ∈ b.all_nodes) (hps : para.ntype ∈ STRUCT_TYPES) :
    BInv (processSentences b para sents) ∧ BStep b (processSentences b para sents) := by
  induction sents generalizing b with
  | nil => exact ⟨hb, BStep_refl b⟩
  | cons s more ih =>
    unfold processSentences
    by_cases hc : stripChars s ≠ []
    · rw [if_pos hc]
      have h1 := addContentNode_ok b "sentence".data para s [] hb hp hps (by decide)
      obtain ⟨hb1, hs1, _, _, _⟩ := h1
      have h2 := ih _ hb1 (BStep_mem hs1 hp)
      exact ⟨h2.1, BStep_trans hs1 h2.2⟩
    · rw [if_neg hc]
      exact ih b hb hp

theorem processParagraph_ok (b : Builder) (parent : Node) (paraText : Str)
    (hb : BInv b) (hp : parent ∈ b.all_nodes) (hps : parent.ntype ∈ STRUCT_TYPES) :
    BInv (processParagraph b parent paraText) ∧ BStep b (processParagraph b parent paraText) := by
  unfold processParagraph
  by_cases hc : stripChars paraText = []
  · rw [if_pos hc]
    exact ⟨hb, BStep_refl b⟩
  · rw [if_neg hc]
    have h1 := addContentNode_ok b "paragraph".data parent (stripChars paraText) [] hb hp hps
      (by decide)
    obtain ⟨hb1, hs1, hmem, hty, _⟩ := h1
    have hstruct : (addContentNode b "paragraph".data parent (stripChars paraText) []).2.ntype ∈
        STRUCT_TYPES := by
      rw [hty]
      decide
    have h2 := processSentences_ok (splitIntoSentences (stripChars paraText)) _ _ hb1 hmem hstruct
    exact ⟨h2.1, BStep_trans hs1 h2.2⟩

theorem processParagraphs_ok (paras : List Str) (b : Builder) (parent : Node)
    (hb : BInv b) (hp : parent ∈ b.all_nodes) (hps : parent.ntype ∈ STRUCT_TYPES) :
    BInv (processParagraphs b parent paras) ∧ BStep b (processParagraphs b parent paras) := by
  induction paras generalizing b with
  | nil => exact ⟨hb, BStep_refl b⟩
  | cons p more ih =>
    have h1 := processParagraph_ok b parent p hb hp hps
    have h2 := ih _ h1.1 (BStep_mem h1.2 hp)
    exact ⟨h2.1, BStep_trans h1.2 h2.2⟩

theorem processContentBlock_ok (b : Builder) (content : Str) (parent : Node)
    (hb : BInv b) (hp : parent ∈ b.all_nodes) (hps : parent.ntype ∈ STRUCT_TYPES) :
    BInv (processContentBlock b content parent) ∧ BStep b (processContentBlock b content parent) := by
  unfold processContentBlock
  have h1 := processEnvs_ok (extractEnvironments content) b parent hb hp hps
  by_cases hc : stripChars (joinSpace (gapParts content 0 (extractEnvironments content))) ≠ []
  · rw [if_pos hc]
    have h2 := processParagraphs_ok
      (splitParagraphs (joinSpace (gapParts content 0 (extractEnvironments content))))
      _ parent h1.1 (BStep_mem h1.2 hp) hps
    exact ⟨h2.1, BStep_trans h1.2 h2.2⟩
  · rw [if_neg hc]
    exact h1

theorem popStack_subset (stack : List Node) (lvl : Nat) :
    ∀ x ∈ popStack stack lvl, x ∈ stack := by
  induction stack with
  | nil => intro x hx; exact hx
  | cons top rest ih =>
    cases rest with
    | nil => intro x hx; exact hx
    | cons s1 srest =>
      intro x hx
      unfold popStack at hx
      by_cases hl : lvl ≤ top.level
      · rw [if_pos hl] at hx
        exact List.mem_cons_of_mem _ (ih x hx)
      · rw [if_neg hl] at hx
        exact hx

/-- Bumping a counter alone preserves the invariant. -/
theorem BInv_getNextId (b : Builder) (t : Str) (p : Option Str) (hb : BInv b) :
    BInv (getNextId b t p).2 := by
  obtain ⟨⟨rest, hrest, hall⟩, hnodup⟩ := hb
  refine ⟨⟨rest, hrest, ?_⟩, hnodup⟩
  intro n hn
  obtain ⟨⟨⟨pp, k, hid, hk1, hk2⟩, hr⟩, hg, pid, hpid, m, hm, hmid, hms⟩ := hall n hn
  exact ⟨⟨⟨pp, k, hid, hk1, le_trans hk2 (getNextId_counterLE b t p n.ntype)⟩, hr⟩, hg,
    pid, hpid, m, hm, hmid, hms⟩

theorem buildSections_cons_eq (b : Builder) (stack : List Node) (s : SectionSpan)
    (more : List SectionSpan) (body : Str) (refPos : Option Nat) :
    buildSections b stack (s :: more) body refPos =
      (match popStack stack s.level with
       | [] => (getNextId b "section".data none).2
       | parent :: stackRest =>
         buildSections
           (processContentBlock
             { (getNextId b "section".data none).2 with
               all_nodes := (getNextId b "section".data none).2.all_nodes ++
                 [mkNode (getNextId b "section".data none).1 "section".data [] s.title
                   s.level (some parent.id)] }
             (pySlice body s.endPos (nextEndPos more refPos body.length))
             (mkNode (getNextId b "section".data none).1 "section".data [] s.title
               s.level (some parent.id)))
           (mkNode (getNextId b "section".data none).1 "section".data [] s.title
             s.level (some parent.id) :: parent :: stackRest) more body refPos) := by
  rfl

theorem buildSections_ok (sections : List SectionSpan) (b : Builder) (stack : List Node)
    (body : Str) (refPos : Option Nat)
    (hb : BInv b)
    (hstack : ∀ x ∈ stack, x ∈ b.all_nodes ∧ x.ntype ∈ STRUCT_TYPES) :
    BInv (buildSections b stack sections body refPos) ∧
    BStep b (buildSections b stack sections body refPos) := by
  induction sections generalizing b stack with
  | nil => exact ⟨hb, BStep_refl b⟩
  | cons s more ih =>
    rw [buildSections_cons_eq]
    cases hpop : popStack stack s.level with
    | nil =>
      exact ⟨BInv_getNextId b "section".data none hb,
        rfl, rfl, ⟨[], by simp [getNextId]⟩, getNextId_counterLE b "section".data none⟩
    | cons parent stackRest =>
      have hpmem : parent ∈ stack :=
        popStack_subset stack s.level parent (hpop ▸ List.mem_cons_self _ _)
      obtain ⟨hpin, hpstruct⟩ := hstack parent hpmem
      set sid := (getNextId b "section".data none).1 with hsiddef
      set b1 := (getNextId b "section".data none).2 with hb1def
      set secNode := mkNode sid "section".data [] s.title s.level (some parent.id) with hsecdef
      set b2 : Builder := { b1 with all_nodes := b1.all_nodes ++ [secNode] } with hb2def
      have hsid : sid = b.pub ++ '-' ::
          (b.ver ++ '-' :: ("section".data ++ '-' ::
            natDecimal (lookupD b.counter "section".data 0 + 1))) := rfl
      have hstep2 : BStep b b2 := by
        refine ⟨rfl, rfl, ⟨[secNode], rfl⟩, getNextId_counterLE b "section".data none⟩
      have hb2 : BInv b2 := by
        refine BInv_append (b := b) (c := b2) secNode rfl rfl rfl hb
          (getNextId_counterLE b "section".data none) ?_
          (by show "section".data ∈ GEN_TYPES; decide) ?_ ?_
        · constructor
          · refine ⟨b.pub ++ '-' :: b.ver,
              lookupD b.counter "section".data 0 + 1, ?_, by omega, ?_⟩
            · show sid = _ ++ '-' :: ("section".data ++ '-' :: _)
              rw [hsid]
              simp
            · show _ ≤ lookupD b2.counter "section".data 0
              have hcnt : b2.counter = (getNextId b "section".data none).2.counter := rfl
              rw [hcnt, getNextId_counter_self]
          · exact ⟨"section".data ++ '-' ::
              natDecimal (lookupD b.counter "section".data 0 + 1), hsid, GoodRest.sec _⟩
        · exact ⟨parent.id, rfl, parent, hpin, rfl, hpstruct⟩
        · intro n hn he
          refine fresh_id hb "section".data (b.pub ++ '-' :: b.ver) (by decide) n hn ?_
          rw [he]
          show sid = _
          rw [hsid]
          simp
      have hsecmem : secNode ∈ b2.all_nodes := by
        show secNode ∈ b1.all_nodes ++ [secNode]
        exact List.mem_append_right _ (List.mem_singleton.2 rfl)
      have h3 := processContentBlock_ok b2
        (pySlice body s.endPos (nextEndPos more refPos body.length)) secNode hb2 hsecmem
        (by show "section".data ∈ _; decide)
      have hstack3 : ∀ x ∈ secNode :: parent :: stackRest,
          x ∈ (processContentBlock b2
            (pySlice body s.endPos (nextEndPos more refPos body.length))
              secNode).all_nodes ∧
            x.ntype ∈ STRUCT_TYPES := by
        intro x hx
        rcases List.mem_cons.1 hx with h | h
        · subst h
          exact ⟨BStep_mem h3.2 hsecmem, by show "section".data ∈ _; decide⟩
        · have hxs : x ∈ stack := popStack_subset stack s.level x (hpop ▸ h)
          obtain ⟨hxin, hxstruct⟩ := hstack x hxs
          exact ⟨BStep_mem h3.2 (BStep_mem hstep2 hxin), hxstruct⟩
      have h4 := ih _ (secNode :: parent :: stackRest) h3.1 hstack3
      exact ⟨h4.1, BStep_trans hstep2 (BStep_trans h3.2 h4.2)⟩

theorem BInv_init (pub ver : Str) :
    BInv { pub := pub, ver := ver, counter := [], all_nodes := [mkRoot pub ver] } := by
  refine ⟨⟨[], rfl, ?_⟩, by simp⟩
  intro n hn
  exact absurd hn (List.not_mem_nil n)

theorem buildHierarchy_BInv (pub ver body : Str) : BInv (buildHierarchy pub ver body) := by
  unfold buildHierarchy
  set b0 : Builder := { pub := pub, ver := ver, counter := [], all_nodes := [mkRoot pub ver] }
    with hb0
  have hinit : BInv b0 := BInv_init pub ver
  have hrootmem : mkRoot pub ver ∈ b0.all_nodes := List.mem_singleton.2 rfl
  by_cases hc : (extractSections body).takeWhile (fun s => !s.is_references) = []
  · rw [if_pos hc]
    exact (processContentBlock_ok b0 _ (mkRoot pub ver) hinit hrootmem
      (by show "document".data ∈ _; decide)).1
  · rw [if_neg hc]
    exact (buildSections_ok _ b0 [mkRoot pub ver] body _ hinit
      (fun x hx => by
        rw [List.mem_singleton] at hx
        subst hx
        exact ⟨hrootmem, by show "document".data ∈ _; decide⟩)).1

theorem buildHierarchy_BStep (pub ver body : Str) :
    BStep { pub := pub, ver := ver, counter := [], all_nodes := [mkRoot pub ver] }
      (buildHierarchy pub ver body) := by
  unfold buildHierarchy
  set b0 : Builder := { pub := pub, ver := ver, counter := [], all_nodes := [mkRoot pub ver] }
    with hb0
  have hinit : BInv b0 := BInv_init pub ver
  have hrootmem : mkRoot pub ver ∈ b0.all_nodes := List.mem_singleton.2 rfl
  by_cases hc : (extractSections body).takeWhile (fun s => !s.is_references) = []
  · rw [if_pos hc]
    exact (processContentBlock_ok b0 _ (mkRoot pub ver) hinit hrootmem
      (by show "document".data ∈ _; decide)).2
  · rw [if_neg hc]
    exact (buildSections_ok _ b0 [mkRoot pub ver] body _ hinit
      (fun x hx => by
        rw [List.mem_singleton] at hx
        subst hx
        exact ⟨hrootmem, by show "document".data ∈ _; decide⟩)).2

/-! ### Reconciler loop characterisation -/

def leafHashP (h : Str) (n : Node) : Bool :=
  dedupEligible n && decide (n.content_hash = some h)

/-- The first dedup-eligible node carrying fingerprint `h` (the node whose id
becomes canonical for `h`). -/
def firstLeafHash (ns : List Node) (h : Str) : Option Node :=
  ns.find? (leafHashP h)

theorem dedupEligible_hash (n : Node) (he : dedupEligible n = true) :
    ∃ h, n.content_hash = some h := by
  unfold dedupEligible at he
  rcases hch : n.content_hash with _ | h
  · rw [hch] at he
    simp at he
  · exact ⟨h, rfl⟩

theorem recElemStep_eligible_dup (els h2i im : List (Str × Str)) (n : Node) (h : Str)
    (cid : Str) (he : dedupEligible n = true) (hch : n.content_hash = some h)
    (hl : lookupA h2i h = some cid) :
    recElemStep (els, h2i, im) n = (els, h2i, insertA im n.id cid) := by
  simp [recElemStep, he, hch, hl]

theorem recElemStep_eligible_fresh (els h2i im : List (Str × Str)) (n : Node) (h : Str)
    (he : dedupEligible n = true) (hch : n.content_hash = some h)
    (hl : lookupA h2i h = none) :
    recElemStep (els, h2i, im) n =
      (insertA els n.id n.content, insertA h2i h n.id, insertA im n.id n.id) := by
  simp [recElemStep, he, hch, hl]

theorem recElemStep_not_eligible (els h2i im : List (Str × Str)) (n : Node)
    (he : dedupEligible n = false) :
    recElemStep (els, h2i, im) n =
      (insertA els n.id (elemPayload n), h2i, insertA im n.id n.id) := by
  simp [recElemStep, he]

theorem recElemLoop_cons (st : List (Str × Str) × List (Str × Str) × List (Str × Str))
    (n : Node) (ns : List Node) :
    recElemLoop st (n :: ns) = recElemLoop (recElemStep st n) ns := rfl

/-- Evolution of `content_hash_to_id`: first writer wins. -/
theorem recElem_h2i (ns : List Node) :
    ∀ els h2i im h, lookupA (recElemLoop (els, h2i, im) ns).2.1 h =
      (match lookupA h2i h with
       | some v => some v
       | none => (firstLeafHash ns h).map Node.id) := by
  induction ns with
  | nil =>
    intro els h2i im h
    cases hl : lookupA h2i h <;> simp [recElemLoop, firstLeafHash, hl]
  | cons n rest ih =>
    intro els h2i im h
    rw [recElemLoop_cons]
    by_cases he : dedupEligible n = true
    · obtain ⟨h0, hch⟩ := dedupEligible_hash n he
      cases hl0 : lookupA h2i h0 with
      | some cid =>
        rw [recElemStep_eligible_dup els h2i im n h0 cid he hch hl0, ih]
        by_cases hh : h0 = h
        · subst hh
          rw [hl0]
        · cases hl : lookupA h2i h with
          | some v => rfl
          | none =>
            have hfl : firstLeafHash (n :: rest) h = firstLeafHash rest h := by
              unfold firstLeafHash
              rw [List.find?_cons]
              have hp : leafHashP h n = false := by
                unfold leafHashP
                rw [hch]
                simp only [he, Bool.true_and, Option.some.injEq]
                exact decide_eq_false hh
              rw [hp]
            rw [hfl]
      | none =>
        rw [recElemStep_eligible_fresh els h2i im n h0 he hch hl0, ih]
        by_cases hh : h0 = h
        · subst hh
          rw [hl0, lookupA_insertA_self]
          have : firstLeafHash (n :: rest) h0 = some n := by
            unfold firstLeafHash
            rw [List.find?_cons]
            have : leafHashP h0 n = true := by
              unfold leafHashP
              rw [hch]
              simp [he]
            rw [this]
          rw [this]
          rfl
        · rw [lookupA_insertA_ne _ _ _ _ (fun hc => hh hc.symm)]
          cases hl : lookupA h2i h with
          | some v => rfl
          | none =>
            have hfl : firstLeafHash (n :: rest) h = firstLeafHash rest h := by
              unfold firstLeafHash
              rw [List.find?_cons]
              have hp : leafHashP h n = false := by
                unfold leafHashP
                rw [hch]
                simp only [he, Bool.true_and, Option.some.injEq]
                exact decide_eq_false hh
              rw [hp]
            rw [hfl]
    · rw [Bool.not_eq_true] at he
      rw [recElemStep_not_eligible els h2i im n he, ih]
      have : firstLeafHash (n :: rest) h = firstLeafHash rest h := by
        unfold firstLeafHash
        rw [List.find?_cons]
        have : leafHashP h n = false := by
          unfold leafHashP
          rw [he]
          rfl
        rw [this]
      rw [this]

theorem leafHashP_eq_true (h : Str) (n : Node) (hp : leafHashP h n = true) :
    dedupEligible n = true ∧ n.content_hash = some h := by
  unfold leafHashP at hp
  rw [Bool.and_eq_true] at hp
  exact ⟨hp.1, of_decide_eq_true hp.2⟩

theorem leafHashP_of (h : Str) (n : Node) (he : dedupEligible n = true)
    (hch : n.content_hash = some h) : leafHashP h n = true := by
  unfold leafHashP
  rw [he, hch]
  simp

/-- A single `recElemStep` over one node, case split into the three live
branches. -/
theorem recElemStep_cases (els h2i im : List (Str × Str)) (n : Node) :
    (∃ h cid, dedupEligible n = true ∧ n.content_hash = some h ∧
      lookupA h2i h = some cid ∧
      recElemStep (els, h2i, im) n = (els, h2i, insertA im n.id cid)) ∨
    (∃ h, dedupEligible n = true ∧ n.content_hash = some h ∧ lookupA h2i h = none ∧
      recElemStep (els, h2i, im) n =
        (insertA els n.id n.content, insertA h2i h n.id, insertA im n.id n.id)) ∨
    (dedupEligible n = false ∧
      recElemStep (els, h2i, im) n =
        (insertA els n.id (elemPayload n), h2i, insertA im n.id n.id)) := by
  by_cases he : dedupEligible n = true
  · obtain ⟨h, hch⟩ := dedupEligible_hash n he
    cases hl : lookupA h2i h with
    | some cid =>
      exact Or.inl ⟨h, cid, he, hch, hl, recElemStep_eligible_dup els h2i im n h cid he hch hl⟩
    | none =>
      exact Or.inr (Or.inl ⟨h, he, hch, hl, recElemStep_eligible_fresh els h2i im n h he hch hl⟩)
  · rw [Bool.not_eq_true] at he
    exact Or.inr (Or.inr ⟨he, recElemStep_not_eligible els h2i im n he⟩)

theorem recElem_els_untouched (ns : List Node) :
    ∀ els h2i im k, (∀ n ∈ ns, n.id ≠ k) →
      lookupA (recElemLoop (els, h2i, im) ns).1 k = lookupA els k := by
  induction ns with
  | nil => intro els h2i im k _; rfl
  | cons n rest ih =>
    intro els h2i im k hk
    have hkn : n.id ≠ k := hk n (List.mem_cons_self _ _)
    have hkr : ∀ m ∈ rest, m.id ≠ k := fun m hm => hk m (List.mem_cons_of_mem _ hm)
    rw [recElemLoop_cons]
    rcases recElemStep_cases els h2i im n with ⟨h, cid, _, _, _, heq⟩ |
      ⟨h, _, _, _, heq⟩ | ⟨_, heq⟩ <;> rw [heq] <;> rw [ih _ _ _ _ hkr]
    · rw [lookupA_insertA_ne _ _ _ _ (fun hh => hkn hh.symm)]
    · rw [lookupA_insertA_ne _ _ _ _ (fun hh => hkn hh.symm)]

theorem recElem_im_untouched (ns : List Node) :
    ∀ els h2i im k, (∀ n ∈ ns, n.id ≠ k) →
      lookupA (recElemLoop (els, h2i, im) ns).2.2 k = lookupA im k := by
  induction ns with
  | nil => intro els h2i im k _; rfl
  | cons n rest ih =>
    intro els h2i im k hk
    have hkn : n.id ≠ k := hk n (List.mem_cons_self _ _)
    have hkr : ∀ m ∈ rest, m.id ≠ k := fun m hm => hk m (List.mem_cons_of_mem _ hm)
    rw [recElemLoop_cons]
    rcases recElemStep_cases els h2i im n with ⟨h, cid, _, _, _, heq⟩ |
      ⟨h, _, _, _, heq⟩ | ⟨_, heq⟩ <;> rw [heq] <;> rw [ih _ _ _ _ hkr] <;>
      rw [lookupA_insertA_ne _ _ _ _ (fun hh => hkn hh.symm)]

theorem recElem_keys_mono (ns : List Node) :
    ∀ els h2i im k, k ∈ keysA els → k ∈ keysA (recElemLoop (els, h2i, im) ns).1 := by
  induction ns with
  | nil => intro els h2i im k hk; exact hk
  | cons n rest ih =>
    intro els h2i im k hk
    rw [recElemLoop_cons]
    rcases recElemStep_cases els h2i im n with ⟨h, cid, _, _, _, heq⟩ |
      ⟨h, _, _, _, heq⟩ | ⟨_, heq⟩ <;> rw [heq]
    · exact ih _ _ _ _ hk
    · exact ih _ _ _ _ ((mem_keysA_insertA _ _ _ _).2 (Or.inl hk))
    · exact ih _ _ _ _ ((mem_keysA_insertA _ _ _ _).2 (Or.inl hk))

theorem recElem_keys_untouched (ns : List Node) :
    ∀ els h2i im k, (∀ n ∈ ns, n.id ≠ k) → k ∉ keysA els →
      k ∉ keysA (recElemLoop (els, h2i, im) ns).1 := by
  induction ns with
  | nil => intro els h2i im k _ hk; exact hk
  | cons n rest ih =>
    intro els h2i im k hk hmem
    have hkn : n.id ≠ k := hk n (List.mem_cons_self _ _)
    have hkr : ∀ m ∈ rest, m.id ≠ k := fun m hm => hk m (List.mem_cons_of_mem _ hm)
    rw [recElemLoop_cons]
    rcases recElemStep_cases els h2i im n with ⟨h, cid, _, _, _, heq⟩ |
      ⟨h, _, _, _, heq⟩ | ⟨_, heq⟩ <;> rw [heq]
    · exact ih _ _ _ _ hkr hmem
    · refine ih _ _ _ _ hkr ?_
      intro hc
      rcases (mem_keysA_insertA _ _ _ _).1 hc with hc | hc
      · exact hmem hc
      · exact hkn hc.symm
    · refine ih _ _ _ _ hkr ?_
      intro hc
      rcases (mem_keysA_insertA _ _ _ _).1 hc with hc | hc
      · exact hmem hc
      · exact hkn hc.symm

theorem recElem_els_register (ns : List Node) :
    ∀ els h2i im n0 h, ((ns.map Node.id).Nodup) → firstLeafHash ns h = some n0 →
      lookupA h2i h = none →
      lookupA (recElemLoop (els, h2i, im) ns).1 n0.id = some n0.content := by
  induction ns with
  | nil => intro els h2i im n0 h _ hf _; simp [firstLeafHash] at hf
  | cons n rest ih =>
    intro els h2i im n0 h hnodup hf hl
    rw [List.map_cons, List.nodup_cons] at hnodup
    unfold firstLeafHash at hf
    rw [List.find?_cons] at hf
    cases hp : leafHashP h n with
    | true =>
      rw [hp] at hf
      rw [Option.some.injEq] at hf
      subst hf
      obtain ⟨he, hch⟩ := leafHashP_eq_true h n hp
      rw [recElemLoop_cons, recElemStep_eligible_fresh els h2i im n h he hch hl]
      rw [recElem_els_untouched rest _ _ _ n.id
        (fun m hm hid => hnodup.1 (hid ▸ List.mem_map_of_mem Node.id hm))]
      exact lookupA_insertA_self els n.id n.content
    | false =>
      rw [hp] at hf
      rw [recElemLoop_cons]
      rcases recElemStep_cases els h2i im n with ⟨h0, cid, he0, hch0, hl0, heq⟩ |
        ⟨h0, he0, hch0, hl0, heq⟩ | ⟨he0, heq⟩ <;> rw [heq]
      · exact ih _ _ _ n0 h hnodup.2 hf hl
      · have hne : h0 ≠ h := by
          intro hc
          subst hc
          exact absurd (leafHashP_of h0 n he0 hch0) (by rw [hp]; simp)
        refine ih _ _ _ n0 h hnodup.2 hf ?_
        rw [lookupA_insertA_ne _ _ _ _ (fun hc => hne hc.symm)]
        exact hl
      · exact ih _ _ _ n0 h hnodup.2 hf hl

theorem recElem_key_all (ns : List Node) :
    ∀ els h2i im n, n ∈ ns → dedupEligible n = false →
      n.id ∈ keysA (recElemLoop (els, h2i, im) ns).1 := by
  induction ns with
  | nil => intro els h2i im n hn; exact absurd hn (List.not_mem_nil n)
  | cons m rest ih =>
    intro els h2i im n hn he
    rw [recElemLoop_cons]
    rcases List.mem_cons.1 hn with heq | hmem
    · subst heq
      rw [recElemStep_not_eligible els h2i im n he]
      exact recElem_keys_mono rest _ _ _ n.id
        ((mem_keysA_insertA _ _ _ _).2 (Or.inr rfl))
    · rcases recElemStep_cases els h2i im m with ⟨h, cid, _, _, _, heq2⟩ |
        ⟨h, _, _, _, heq2⟩ | ⟨_, heq2⟩ <;> rw [heq2] <;> exact ih _ _ _ n hmem he

theorem recElem_keys_nodup (ns : List Node) :
    ∀ els h2i im, ((ns.map Node.id).Nodup) → (keysA els).Nodup →
      (∀ n ∈ ns, n.id ∉ keysA els) →
      (keysA (recElemLoop (els, h2i, im) ns).1).Nodup := by
  induction ns with
  | nil => intro els h2i im _ hk _; exact hk
  | cons n rest ih =>
    intro els h2i im hnodup hk hdisj
    rw [List.map_cons, List.nodup_cons] at hnodup
    have hins : (keysA (insertA els n.id n.content)).Nodup ∧
        (keysA (insertA els n.id (elemPayload n))).Nodup := by
      constructor <;>
      · rw [insertA_of_not_mem els n.id _ (hdisj n (List.mem_cons_self _ _)), keysA_append]
        refine List.Nodup.append hk (by simp [keysA]) ?_
        intro a ha hb
        simp only [keysA, List.map_cons, List.map_nil, List.mem_singleton] at hb
        subst hb
        exact hdisj n (List.mem_cons_self _ _) ha
    have hdisj2 : ∀ v : Str, ∀ m ∈ rest, m.id ∉ keysA (insertA els n.id v) := by
      intro v m hm hc
      rcases (mem_keysA_insertA _ _ _ _).1 hc with hc | hc
      · exact hdisj m (List.mem_cons_of_mem _ hm) hc
      · exact hnodup.1 (hc ▸ List.mem_map_of_mem Node.id hm)
    rw [recElemLoop_cons]
    rcases recElemStep_cases els h2i im n with ⟨h, cid, _, _, _, heq⟩ |
      ⟨h, _, _, _, heq⟩ | ⟨_, heq⟩ <;> rw [heq]
    · exact ih _ _ _ hnodup.2 hk (fun m hm => hdisj m (List.mem_cons_of_mem _ hm))
    · exact ih _ _ _ hnodup.2 hins.1 (hdisj2 _)
    · exact ih _ _ _ hnodup.2 hins.2 (hdisj2 _)

/-- A dedup-eligible node that is not the first carrier of its fingerprint
contributes no `elements` entry of its own. -/
theorem recElem_skip (ns : List Node) :
    ∀ els h2i im m h, ((ns.map Node.id).Nodup) → m ∈ ns →
      dedupEligible m = true → m.content_hash = some h →
      (lookupA h2i h = none → firstLeafHash ns h ≠ some m) →
      m.id ∉ keysA els →
      m.id ∉ keysA (recElemLoop (els, h2i, im) ns).1 := by
  induction ns with
  | nil => intro els h2i im m h _ hm; exact absurd hm (List.not_mem_nil m)
  | cons n rest ih =>
    intro els h2i im m h hnodup hm he hch hfirst hstart
    rw [List.map_cons, List.nodup_cons] at hnodup
    rcases List.mem_cons.1 hm with heq | hmem
    · subst heq
      cases hl : lookupA h2i h with
      | none =>
        exfalso
        apply hfirst hl
        unfold firstLeafHash
        rw [List.find?_cons, leafHashP_of h m he hch]
      | some cid =>
        rw [recElemLoop_cons, recElemStep_eligible_dup els h2i im m h cid he hch hl]
        exact recElem_keys_untouched rest _ _ _ m.id
          (fun n2 hn2 hid => hnodup.1 (hid ▸ List.mem_map_of_mem Node.id hn2)) hstart
    · have hmid : n.id ≠ m.id := by
        intro hc
        exact hnodup.1 (hc ▸ List.mem_map_of_mem Node.id hmem)
      rw [recElemLoop_cons]
      rcases recElemStep_cases els h2i im n with ⟨h0, cid, he0, hch0, hl0, heq⟩ |
        ⟨h0, he0, hch0, hl0, heq⟩ | ⟨he0, heq⟩ <;> rw [heq]
      · refine ih _ _ _ m h hnodup.2 hmem he hch ?_ hstart
        intro hl hc
        apply hfirst hl
        unfold firstLeafHash
        rw [List.find?_cons]
        cases hp : leafHashP h n with
        | true =>
          exfalso
          obtain ⟨_, hchn⟩ := leafHashP_eq_true h n hp
          rw [hchn] at hch0
          rw [Option.some.injEq] at hch0
          rw [← hch0] at hl0
          rw [hl] at hl0
          exact Option.noConfusion hl0
        | false =>
          exact hc
      · refine ih _ _ _ m h hnodup.2 hmem he hch ?_ ?_
        · intro hl hc
          by_cases hhh : h0 = h
          · subst hhh
            rw [lookupA_insertA_self] at hl
            exact Option.noConfusion hl
          · rw [lookupA_insertA_ne _ _ _ _ (fun hcc => hhh hcc.symm)] at hl
            apply hfirst hl
            unfold firstLeafHash
            rw [List.find?_cons]
            have hp : leafHashP h n = false := by
              unfold leafHashP
              rw [hch0]
              simp only [he0, Bool.true_and, Option.some.injEq]
              exact decide_eq_false hhh
            rw [hp]
            exact hc
        · intro hc
          rcases (mem_keysA_insertA _ _ _ _).1 hc with hc | hc
          · exact hstart hc
          · exact hmid hc.symm
      · refine ih _ _ _ m h hnodup.2 hmem he hch ?_ ?_
        · intro hl hc
          apply hfirst hl
          unfold firstLeafHash
          rw [List.find?_cons]
          have hp : leafHashP h n = false := by
            unfold leafHashP
            rw [he0]
            rfl
          rw [hp]
          exact hc
        · intro hc
          rcases (mem_keysA_insertA _ _ _ _).1 hc with hc | hc
          · exact hstart hc
          · exact hmid hc.symm

/-- The canonical identifier a node's id is mapped to by `id_mapping`:
itself for structural nodes, the first carrier of its fingerprint (in the
shared `content_hash_to_id` map, then in the version order) for
dedup-eligible leaves. -/
def canonEntry (h2i : List (Str × Str)) (ns : List Node) (n : Node) : Str :=
  if dedupEligible n then
    match n.content_hash with
    | some h =>
      match lookupA h2i h with
      | some cid => cid
      | none => ((firstLeafHash ns h).map Node.id).getD n.id
    | none => n.id
  else n.id

theorem canonEntry_not_eligible (h2i : List (Str × Str)) (ns : List Node) (n : Node)
    (he : dedupEligible n = false) : canonEntry h2i ns n = n.id := by
  unfold canonEntry
  rw [he]
  rfl

theorem canonEntry_step (els h2i im : List (Str × Str)) (n0 : Node) (rest : List Node)
    (n : Node) :
    canonEntry ((recElemStep (els, h2i, im) n0).2.1) rest n =
      canonEntry h2i (n0 :: rest) n := by
  by_cases hen : dedupEligible n = true
  · obtain ⟨h, hch⟩ := dedupEligible_hash n hen
    unfold canonEntry
    rw [hen, hch]
    simp only [if_true]
    rcases recElemStep_cases els h2i im n0 with ⟨h0, cid, he0, hch0, hl0, heq⟩ |
      ⟨h0, he0, hch0, hl0, heq⟩ | ⟨he0, heq⟩ <;> rw [heq]
    · cases hl : lookupA h2i h with
      | some c => rfl
      | none =>
        have hne : h0 ≠ h := by
          intro hc
          subst hc
          rw [hl0] at hl
          exact Option.noConfusion hl
        have hfl : firstLeafHash (n0 :: rest) h = firstLeafHash rest h := by
          unfold firstLeafHash
          rw [List.find?_cons]
          have hp : leafHashP h n0 = false := by
            unfold leafHashP
            rw [hch0]
            simp only [he0, Bool.true_and, Option.some.injEq]
            exact decide_eq_false hne
          rw [hp]
        rw [hfl]
    · by_cases hhh : h0 = h
      · subst hhh
        rw [lookupA_insertA_self, hl0]
        have hfl : firstLeafHash (n0 :: rest) h0 = some n0 := by
          unfold firstLeafHash
          rw [List.find?_cons, leafHashP_of h0 n0 he0 hch0]
        rw [hfl]
        rfl
      · rw [lookupA_insertA_ne _ _ _ _ (fun hc => hhh hc.symm)]
        cases hl : lookupA h2i h with
        | some c => rfl
        | none =>
          have hfl : firstLeafHash (n0 :: rest) h = firstLeafHash rest h := by
            unfold firstLeafHash
            rw [List.find?_cons]
            have hp : leafHashP h n0 = false := by
              unfold leafHashP
              rw [hch0]
              simp only [he0, Bool.true_and, Option.some.injEq]
              exact decide_eq_false hhh
            rw [hp]
          rw [hfl]
    · cases hl : lookupA h2i h with
      | some c => rfl
      | none =>
        have hfl : firstLeafHash (n0 :: rest) h = firstLeafHash rest h := by
          unfold firstLeafHash
          rw [List.find?_cons]
          have hp : leafHashP h n0 = false := by
            unfold leafHashP
            rw [he0]
            rfl
          rw [hp]
        rw [hfl]
  · rw [Bool.not_eq_true] at hen
    rw [canonEntry_not_eligible _ _ _ hen, canonEntry_not_eligible _ _ _ hen]

/-- `id_mapping` characterisation: every node of the version maps to its
canonical identifier. -/
theorem recElem_im_lookup (ns : List Node) :
    ∀ els h2i im, ((ns.map Node.id).Nodup) → ∀ n ∈ ns,
      lookupA (recElemLoop (els, h2i, im) ns).2.2 n.id =
        some (canonEntry h2i ns n) := by
  induction ns with
  | nil => intro els h2i im _ n hn; exact absurd hn (List.not_mem_nil n)
  | cons n0 rest ih =>
    intro els h2i im hnodup n hn
    rw [List.map_cons, List.nodup_cons] at hnodup
    rcases List.mem_cons.1 hn with heq | hmem
    · subst heq
      have huntouched : ∀ im2 : List (Str × Str),
          lookupA (recElemLoop ((recElemStep (els, h2i, im) n).1,
            (recElemStep (els, h2i, im) n).2.1, im2) rest).2.2 n.id = lookupA im2 n.id :=
        fun im2 => recElem_im_untouched rest _ _ _ n.id
          (fun m hm hid => hnodup.1 (hid ▸ List.mem_map_of_mem Node.id hm))
      rw [recElemLoop_cons]
      rcases recElemStep_cases els h2i im n with ⟨h0, cid, he0, hch0, hl0, heq⟩ |
        ⟨h0, he0, hch0, hl0, heq⟩ | ⟨he0, heq⟩ <;> rw [heq] <;>
        rw [recElem_im_untouched rest _ _ _ n.id
          (fun m hm hid => hnodup.1 (hid ▸ List.mem_map_of_mem Node.id hm)),
          lookupA_insertA_self]
      · unfold canonEntry
        rw [he0, hch0]
        simp only [if_true]
        rw [hl0]
      · unfold canonEntry
        rw [he0, hch0]
        simp only [if_true]
        rw [hl0]
        have hfl : firstLeafHash (n :: rest) h0 = some n := by
          unfold firstLeafHash
          rw [List.find?_cons, leafHashP_of h0 n he0 hch0]
        rw [hfl]
        rfl
      · rw [canonEntry_not_eligible _ _ _ he0]
    · rw [recElemLoop_cons]
      have hstep := canonEntry_step els h2i im n0 rest n
      rcases recElemStep_cases els h2i im n0 with ⟨h0, cid, he0, hch0, hl0, heq⟩ |
        ⟨h0, he0, hch0, hl0, heq⟩ | ⟨he0, heq⟩ <;> rw [heq] <;> rw [heq] at hstep <;>
        rw [ih _ _ _ hnodup.2 n hmem, hstep]

/-! ### Hierarchy loop characterisation -/

/-- The sequence of values written to key `k` of the per-version hierarchy
dict, in processing order. -/
def writesFor (im : List (Str × Str)) (ns : List Node) (k : Str) : List Str :=
  ns.filterMap (fun n =>
    match n.parent_id with
    | some pid => if lookupD im n.id n.id = k then some (lookupD im pid pid) else none
    | none => none)

theorem recHierLoop_cons (im : List (Str × Str)) (hier : List (Str × Str)) (n : Node)
    (ns : List Node) :
    recHierLoop im hier (n :: ns) = recHierLoop im (recHierStep im hier n) ns := rfl

theorem recHier_lookup (ns : List Node) :
    ∀ im hier k, lookupA (recHierLoop im hier ns) k =
      (writesFor im ns k).foldl (fun _ v => some v) (lookupA hier k) := by
  induction ns with
  | nil => intro im hier k; rfl
  | cons n rest ih =>
    intro im hier k
    rw [recHierLoop_cons]
    cases hp : n.parent_id with
    | none =>
      have hs : recHierStep im hier n = hier := by
        unfold recHierStep
        rw [hp]
      have hw : writesFor im (n :: rest) k = writesFor im rest k := by
        unfold writesFor
        rw [List.filterMap_cons, hp]
      rw [hs, hw, ih]
    | some pid =>
      have hs : recHierStep im hier n =
          insertA hier (lookupD im n.id n.id) (lookupD im pid pid) := by
        unfold recHierStep
        rw [hp]
      by_cases hk : lookupD im n.id n.id = k
      · have hw : writesFor im (n :: rest) k =
            lookupD im pid pid :: writesFor im rest k := by
          unfold writesFor
          rw [List.filterMap_cons, hp]
          simp [hk]
        rw [hs, hw, ih, List.foldl_cons, hk, lookupA_insertA_self]
      · have hw : writesFor im (n :: rest) k = writesFor im rest k := by
          unfold writesFor
          rw [List.filterMap_cons, hp]
          simp [hk]
        rw [hs, hw, ih, lookupA_insertA_ne _ _ _ _ (fun hc => hk hc.symm)]

theorem recHier_keys_mono (ns : List Node) :
    ∀ im hier k, k ∈ keysA hier → k ∈ keysA (recHierLoop im hier ns) := by
  induction ns with
  | nil => intro im hier k hk; exact hk
  | cons n rest ih =>
    intro im hier k hk
    rw [recHierLoop_cons]
    refine ih _ _ _ ?_
    unfold recHierStep
    cases n.parent_id with
    | none => exact hk
    | some pid => exact (mem_keysA_insertA _ _ _ _).2 (Or.inl hk)

theorem recHier_key_present (ns : List Node) :
    ∀ im hier n pid, n ∈ ns → n.parent_id = some pid →
      lookupD im n.id n.id ∈ keysA (recHierLoop im hier ns) := by
  induction ns with
  | nil => intro im hier n pid hn; exact absurd hn (List.not_mem_nil n)
  | cons m rest ih =>
    intro im hier n pid hn hp
    rw [recHierLoop_cons]
    rcases List.mem_cons.1 hn with heq | hmem
    · subst heq
      refine recHier_keys_mono rest _ _ _ ?_
      unfold recHierStep
      rw [hp]
      exact (mem_keysA_insertA _ _ _ _).2 (Or.inr rfl)
    · exact ih _ _ n pid hmem hp

theorem recHier_mem (ns : List Node) :
    ∀ im hier k val, (k, val) ∈ recHierLoop im hier ns →
      (k, val) ∈ hier ∨ ∃ n ∈ ns, ∃ pid, n.parent_id = some pid ∧
        k = lookupD im n.id n.id ∧ val = lookupD im pid pid := by
  induction ns with
  | nil => intro im hier k val hk; exact Or.inl hk
  | cons n rest ih =>
    intro im hier k val hk
    rw [recHierLoop_cons] at hk
    rcases ih _ _ _ _ hk with hmem | ⟨m, hm, pid, hp, hkk, hv⟩
    · unfold recHierStep at hmem
      cases hpn : n.parent_id with
      | none =>
        rw [hpn] at hmem
        exact Or.inl hmem
      | some pid =>
        rw [hpn] at hmem
        rcases mem_insertA _ _ _ _ _ hmem with hmem | ⟨hkk, hv⟩
        · exact Or.inl hmem
        · exact Or.inr ⟨n, List.mem_cons_self _ _, pid, hpn, hkk, hv⟩
    · exact Or.inr ⟨m, List.mem_cons_of_mem _ hm, pid, hp, hkk, hv⟩

theorem foldl_override_of_mem (ws : List Str) (init : Option Str) (hne : ws ≠ []) :
    ∃ v ∈ ws, ws.foldl (fun _ v => some v) init = some v := by
  induction ws generalizing init with
  | nil => exact absurd rfl hne
  | cons w rest ih =>
    by_cases hr : rest = []
    · subst hr
      exact ⟨w, List.mem_cons_self _ _, rfl⟩
    · obtain ⟨v, hv, hf⟩ := ih (some w) hr
      exact ⟨v, List.mem_cons_of_mem _ hv, hf⟩

theorem writesFor_mem (im : List (Str × Str)) (ns : List Node) (k : Str) (v : Str)
    (hv : v ∈ writesFor im ns k) :
    ∃ n ∈ ns, ∃ pid, n.parent_id = some pid ∧ lookupD im n.id n.id = k ∧
      v = lookupD im pid pid := by
  obtain ⟨n, hn, hf⟩ := List.mem_filterMap.1 hv
  refine ⟨n, hn, ?_⟩
  cases hp : n.parent_id with
  | none => rw [hp] at hf; exact Option.noConfusion hf
  | some pid =>
    rw [hp] at hf
    have hf2 : (if lookupD im n.id n.id = k then some (lookupD im pid pid) else none) =
        some v := hf
    by_cases hk : lookupD im n.id n.id = k
    · rw [if_pos hk] at hf2
      rw [Option.some.injEq] at hf2
      exact ⟨pid, rfl, hk, hf2.symm⟩
    · rw [if_neg hk] at hf2
      exact Option.noConfusion hf2

theorem writesFor_of_node (im : List (Str × Str)) (ns : List Node) (k : Str) (n : Node)
    (pid : Str) (hn : n ∈ ns) (hp : n.parent_id = some pid)
    (hk : lookupD im n.id n.id = k) : lookupD im pid pid ∈ writesFor im ns k := by
  refine List.mem_filterMap.2 ⟨n, hn, ?_⟩
  rw [hp]
  show (if lookupD im n.id n.id = k then some (lookupD im pid pid) else none) = _
  rw [if_pos hk]

/-! ### Composition across versions -/

def processedNodes (pub : Str) : List (Str × Str) → List Node
  | [] => []
  | (v, b) :: rest =>
    (if b = [] then [] else (buildHierarchy pub v b).all_nodes) ++ processedNodes pub rest

theorem recElemLoop_append (A B : List Node)
    (st : List (Str × Str) × List (Str × Str) × List (Str × Str)) :
    recElemLoop st (A ++ B) = recElemLoop (recElemLoop st A) B := by
  induction A generalizing st with
  | nil => rfl
  | cons n rest ih => rw [List.cons_append, recElemLoop_cons, recElemLoop_cons, ih]

theorem recElemLoop_im_indep (ns : List Node) :
    ∀ els h2i im im2,
      (recElemLoop (els, h2i, im) ns).1 = (recElemLoop (els, h2i, im2) ns).1 ∧
      (recElemLoop (els, h2i, im) ns).2.1 = (recElemLoop (els, h2i, im2) ns).2.1 := by
  induction ns with
  | nil => intro els h2i im im2; exact ⟨rfl, rfl⟩
  | cons n rest ih =>
    intro els h2i im im2
    rw [recElemLoop_cons, recElemLoop_cons]
    rcases recElemStep_cases els h2i im n with ⟨h, cid, he, hch, hl, heq⟩ |
      ⟨h, he, hch, hl, heq⟩ | ⟨he, heq⟩
    · rw [heq, recElemStep_eligible_dup els h2i im2 n h cid he hch hl]
      exact ih _ _ _ _
    · rw [heq, recElemStep_eligible_fresh els h2i im2 n h he hch hl]
      exact ih _ _ _ _
    · rw [heq, recElemStep_not_eligible els h2i im2 n he]
      exact ih _ _ _ _

theorem recVersion_empty (pub : Str) (st : RecState) (v : Str) :
    recVersion pub st (v, []) = st := by
  simp [recVersion]

theorem recVersion_proc (pub : Str) (st : RecState) (v b : Str) (hb : b ≠ []) :
    recVersion pub st (v, b) =
      { elements :=
          (recElemLoop (st.elements, st.hashToId, [])
            (buildHierarchy pub v b).all_nodes).1,
        hashToId :=
          (recElemLoop (st.elements, st.hashToId, [])
            (buildHierarchy pub v b).all_nodes).2.1,
        idMaps := insertA st.idMaps v
          (recElemLoop (st.elements, st.hashToId, [])
            (buildHierarchy pub v b).all_nodes).2.2,
        hierarchies := insertA st.hierarchies v
          (recHierLoop
            (recElemLoop (st.elements, st.hashToId, [])
              (buildHierarchy pub v b).all_nodes).2.2
            [] (buildHierarchy pub v b).all_nodes) } := by
  simp only [recVersion, if_neg hb]

theorem buildHierarchy_pub (pub ver body : Str) : (buildHierarchy pub ver body).pub = pub := by
  have h := buildHierarchy_BStep pub ver body
  exact h.1

theorem buildHierarchy_ver (pub ver body : Str) : (buildHierarchy pub ver body).ver = ver := by
  have h := buildHierarchy_BStep pub ver body
  exact h.2.1

theorem buildHierarchy_nodup (pub ver body : Str) :
    (((buildHierarchy pub ver body).all_nodes).map Node.id).Nodup :=
  (buildHierarchy_BInv pub ver body).2

theorem buildHierarchy_shape (pub ver body : Str) :
    ∃ rest, (buildHierarchy pub ver body).all_nodes = mkRoot pub ver :: rest ∧
      ∀ n ∈ rest, nodeOK (buildHierarchy pub ver body) n := by
  obtain ⟨⟨rest, hrest, hall⟩, _⟩ := buildHierarchy_BInv pub ver body
  rw [buildHierarchy_pub, buildHierarchy_ver] at hrest
  exact ⟨rest, hrest, hall⟩

theorem dedupEligible_mkRoot (pub ver : Str) : dedupEligible (mkRoot pub ver) = false := by
  simp [dedupEligible, mkRoot, mkNode]

/-- A node that carries a parent pointer or is dedup-eligible is a generated
(non-root) node: its id ends in a counter digit. -/
theorem build_node_digitLast (pub ver body : Str) (n : Node)
    (hn : n ∈ (buildHierarchy pub ver body).all_nodes)
    (hcond : n.parent_id ≠ none ∨ dedupEligible n = true) : digitLast n.id := by
  obtain ⟨rest, hrest, hall⟩ := buildHierarchy_shape pub ver body
  rw [hrest] at hn
  rcases List.mem_cons.1 hn with heq | hmem
  · subst heq
    rcases hcond with hc | hc
    · exact absurd rfl hc
    · rw [dedupEligible_mkRoot] at hc
      exact Bool.noConfusion hc
  · obtain ⟨⟨⟨p, k, hid, _, _⟩, _⟩, _, _⟩ := hall n hmem
    rw [hid]
    exact genid_digitLast p n.ntype k

theorem build_node_parent (pub ver body : Str) (n : Node) (pid : Str)
    (hn : n ∈ (buildHierarchy pub ver body).all_nodes) (hp : n.parent_id = some pid) :
    ∃ m ∈ (buildHierarchy pub ver body).all_nodes, m.id = pid ∧ m.ntype ∈ STRUCT_TYPES := by
  obtain ⟨rest, hrest, hall⟩ := buildHierarchy_shape pub ver body
  rw [hrest] at hn
  rcases List.mem_cons.1 hn with heq | hmem
  · subst heq
    exact absurd hp (by simp [mkRoot, mkNode])
  · obtain ⟨_, _, pid2, hpid2, m, hm, hmid, hms⟩ := hall n hmem
    rw [hp] at hpid2
    rw [Option.some.injEq] at hpid2
    subst hpid2
    exact ⟨m, hm, hmid, hms⟩

theorem struct_not_eligible (m : Node) (hs : m.ntype ∈ STRUCT_TYPES) :
    dedupEligible m = false := by
  have hmem : decide (m.ntype ∈ LEAF_TYPES) = false := by
    refine decide_eq_false ?_
    intro hc
    simp only [STRUCT_TYPES, List.mem_cons, List.not_mem_nil, or_false] at hs
    rcases hs with h | h | h | h <;> rw [h] at hc <;> exact absurd hc (by decide)
  unfold dedupEligible
  rw [hmem]
  simp

/-- Every version's generated node ids start with `pub-ver-` and have a
well-formed rest: ids of distinct versions never collide. -/
theorem build_node_goodRest (pub ver body : Str) (n : Node)
    (hn : n ∈ (buildHierarchy pub ver body).all_nodes) :
    ∃ r, n.id = pub ++ '-' :: (ver ++ '-' :: r) ∧ GoodRest r := by
  have h := BInv_decomp (buildHierarchy_BInv pub ver body) hn
  rw [buildHierarchy_pub, buildHierarchy_ver] at h
  exact h

theorem processedNodes_cons (pub : Str) (v b : Str) (rest : List (Str × Str)) :
    processedNodes pub ((v, b) :: rest) =
      (if b = [] then [] else (buildHierarchy pub v b).all_nodes) ++
        processedNodes pub rest := rfl

theorem processedNodes_mem (pub : Str) (vs : List (Str × Str)) (n : Node)
    (hn : n ∈ processedNodes pub vs) :
    ∃ v b, (v, b) ∈ vs ∧ b ≠ [] ∧ n ∈ (buildHierarchy pub v b).all_nodes := by
  induction vs with
  | nil => exact absurd hn (List.not_mem_nil n)
  | cons vb rest ih =>
    obtain ⟨v, b⟩ := vb
    rw [processedNodes_cons] at hn
    rcases List.mem_append.1 hn with h | h
    · by_cases hb : b = []
      · rw [if_pos hb] at h
        exact absurd h (List.not_mem_nil n)
      · rw [if_neg hb] at h
        exact ⟨v, b, List.mem_cons_self _ _, hb, h⟩
    · obtain ⟨v2, b2, hmem, hb2, hn2⟩ := ih h
      exact ⟨v2, b2, List.mem_cons_of_mem _ hmem, hb2, hn2⟩

theorem processedNodes_nodup (pub : Str) (vs : List (Str × Str))
    (hv : (vs.map Prod.fst).Nodup) :
    ((processedNodes pub vs).map Node.id).Nodup := by
  induction vs with
  | nil => simp [processedNodes]
  | cons vb rest ih =>
    obtain ⟨v, b⟩ := vb
    rw [List.map_cons, List.nodup_cons] at hv
    rw [processedNodes_cons, List.map_append]
    refine List.Nodup.append ?_ (ih hv.2) ?_
    · by_cases hb : b = []
      · simp [hb]
      · rw [if_neg hb]
        exact buildHierarchy_nodup pub v b
    · intro a ha hb2
      by_cases hb : b = []
      · rw [if_pos hb] at ha
        simp at ha
      · rw [if_neg hb] at ha
        obtain ⟨n, hn, hna⟩ := List.mem_map.1 ha
        obtain ⟨m, hm, hma⟩ := List.mem_map.1 hb2
        obtain ⟨v2, b2, hmem2, hb2e, hn2⟩ := processedNodes_mem pub rest m hm
        obtain ⟨r1, hid1, hg1⟩ := build_node_goodRest pub v b n hn
        obtain ⟨r2, hid2, hg2⟩ := build_node_goodRest pub v2 b2 m hn2
        have hvne : v ≠ v2 := by
          intro hc
          apply hv.1
          rw [hc]
          exact List.mem_map.2 ⟨(v2, b2), hmem2, rfl⟩
        have heq : n.id = m.id := hna.trans hma.symm
        rw [hid1, hid2] at heq
        exact crossVersion_ne pub v v2 r1 r2 hvne hg1 hg2 heq

theorem firstLeafHash_append (A B : List Node) (h : Str) :
    firstLeafHash (A ++ B) h =
      (match firstLeafHash A h with
       | some x => some x
       | none => firstLeafHash B h) := by
  induction A with
  | nil => rfl
  | cons n rest ih =>
    unfold firstLeafHash at *
    rw [List.cons_append, List.find?_cons, List.find?_cons]
    cases hp : leafHashP h n with
    | true => rfl
    | false => exact ih

theorem processedNodes_append (pub : Str) (A B : List (Str × Str)) :
    processedNodes pub (A ++ B) = processedNodes pub A ++ processedNodes pub B := by
  induction A with
  | nil => rfl
  | cons vb rest ih =>
    obtain ⟨v, b⟩ := vb
    rw [List.cons_append, processedNodes_cons, processedNodes_cons, ih, List.append_assoc]

theorem recVersion_elements (pub : Str) (st : RecState) (v b : Str) (hb : b ≠ []) :
    (recVersion pub st (v, b)).elements =
      (recElemLoop (st.elements, st.hashToId, [])
        (buildHierarchy pub v b).all_nodes).1 := by
  rw [recVersion_proc pub st v b hb]

theorem recVersion_hashToId (pub : Str) (st : RecState) (v b : Str) (hb : b ≠ []) :
    (recVersion pub st (v, b)).hashToId =
      (recElemLoop (st.elements, st.hashToId, [])
        (buildHierarchy pub v b).all_nodes).2.1 := by
  rw [recVersion_proc pub st v b hb]

theorem foldl_elements_hash (pub : Str) (vs : List (Str × Str)) :
    ∀ st0 : RecState,
      (vs.foldl (recVersion pub) st0).elements =
        (recElemLoop (st0.elements, st0.hashToId, []) (processedNodes pub vs)).1 ∧
      (vs.foldl (recVersion pub) st0).hashToId =
        (recElemLoop (st0.elements, st0.hashToId, []) (processedNodes pub vs)).2.1 := by
  induction vs with
  | nil => intro st0; exact ⟨rfl, rfl⟩
  | cons vb rest ih =>
    intro st0
    obtain ⟨v, b⟩ := vb
    rw [List.foldl_cons, processedNodes_cons]
    by_cases hb : b = []
    · subst hb
      rw [recVersion_empty]
      simpa using ih st0
    · rw [if_neg hb, recElemLoop_append]
      obtain ⟨ih1, ih2⟩ := ih (recVersion pub st0 (v, b))
      rw [ih1, ih2, recVersion_elements pub st0 v b hb, recVersion_hashToId pub st0 v b hb]
      have heta : recElemLoop (st0.elements, st0.hashToId, [])
          (buildHierarchy pub v b).all_nodes =
          ((recElemLoop (st0.elements, st0.hashToId, [])
              (buildHierarchy pub v b).all_nodes).1,
           (recElemLoop (st0.elements, st0.hashToId, [])
              (buildHierarchy pub v b).all_nodes).2.1,
           (recElemLoop (st0.elements, st0.hashToId, [])
              (buildHierarchy pub v b).all_nodes).2.2) := rfl
      rw [heta]
      have hindep := recElemLoop_im_indep (processedNodes pub rest)
        (recElemLoop (st0.elements, st0.hashToId, [])
          (buildHierarchy pub v b).all_nodes).1
        (recElemLoop (st0.elements, st0.hashToId, [])
          (buildHierarchy pub v b).all_nodes).2.1
        []
        (recElemLoop (st0.elements, st0.hashToId, [])
          (buildHierarchy pub v b).all_nodes).2.2
      exact ⟨hindep.1, hindep.2⟩

theorem foldl_hier_untouched (pub : Str) (vs : List (Str × Str)) :
    ∀ st0 v, v ∉ vs.map Prod.fst →
      lookupA (vs.foldl (recVersion pub) st0).hierarchies v = lookupA st0.hierarchies v ∧
      lookupA (vs.foldl (recVersion pub) st0).idMaps v = lookupA st0.idMaps v := by
  induction vs with
  | nil => intro st0 v _; exact ⟨rfl, rfl⟩
  | cons vb rest ih =>
    intro st0 v hv
    obtain ⟨v0, b0⟩ := vb
    rw [List.map_cons] at hv
    have hne : v ≠ v0 := fun hc => hv (hc ▸ List.mem_cons_self _ _)
    have hrest : v ∉ rest.map Prod.fst := fun hc => hv (List.mem_cons_of_mem _ hc)
    rw [List.foldl_cons]
    by_cases hb : b0 = []
    · subst hb
      rw [recVersion_empty]
      exact ih st0 v hrest
    · rw [recVersion_proc pub st0 v0 b0 hb]
      obtain ⟨ih1, ih2⟩ := ih _ v hrest
      rw [ih1, ih2]
      constructor
      · exact lookupA_insertA_ne _ _ _ _ hne
      · exact lookupA_insertA_ne _ _ _ _ hne

theorem reconcile_version_state (pub : Str) (vs : List (Str × Str)) :
    ∀ st0 v b, (v, b) ∈ vs → (vs.map Prod.fst).Nodup → b ≠ [] →
      ∃ stPre : RecState,
        (∃ pre post, vs = pre ++ (v, b) :: post ∧
          stPre = pre.foldl (recVersion pub) st0) ∧
        lookupA (vs.foldl (recVersion pub) st0).idMaps v =
          some (recElemLoop (stPre.elements, stPre.hashToId, [])
            (buildHierarchy pub v b).all_nodes).2.2 ∧
        lookupA (vs.foldl (recVersion pub) st0).hierarchies v =
          some (recHierLoop
            (recElemLoop (stPre.elements, stPre.hashToId, [])
              (buildHierarchy pub v b).all_nodes).2.2
            [] (buildHierarchy pub v b).all_nodes) := by
  induction vs with
  | nil => intro st0 v b hm; exact absurd hm (List.not_mem_nil _)
  | cons vb rest ih =>
    intro st0 v b hm hnodup hb
    obtain ⟨v0, b0⟩ := vb
    rw [List.map_cons, List.nodup_cons] at hnodup
    rcases List.mem_cons.1 hm with heq | hmem
    · rw [Prod.mk.injEq] at heq
      obtain ⟨hv, hbb⟩ := heq
      subst hv
      subst hbb
      refine ⟨st0, ⟨[], rest, rfl, rfl⟩, ?_⟩
      rw [List.foldl_cons, recVersion_proc pub st0 v b hb]
      have hrest : v ∉ rest.map Prod.fst := hnodup.1
      obtain ⟨hu1, hu2⟩ := foldl_hier_untouched pub rest _ v hrest
      rw [hu1, hu2]
      constructor
      · exact lookupA_insertA_self _ _ _
      · exact lookupA_insertA_self _ _ _
    · rw [List.foldl_cons]
      obtain ⟨stPre, ⟨pre, post, hsplit, hpre⟩, h1, h2⟩ :=
        ih (recVersion pub st0 (v0, b0)) v b hmem hnodup.2 hb
      refine ⟨stPre, ⟨(v0, b0) :: pre, post, ?_, ?_⟩, h1, h2⟩
      · rw [List.cons_append, hsplit]
      · rw [List.foldl_cons]
        exact hpre

/-! ### Reconciler output invariant (no dangling parents, no root child keys) -/

theorem recElem_h2i_mem (ns : List Node) :
    ∀ els h2i im h cid, (h, cid) ∈ (recElemLoop (els, h2i, im) ns).2.1 →
      (h, cid) ∈ h2i ∨ ∃ n ∈ ns, cid = n.id ∧ dedupEligible n = true := by
  induction ns with
  | nil => intro els h2i im h cid hm; exact Or.inl hm
  | cons n rest ih =>
    intro els h2i im h cid hm
    rw [recElemLoop_cons] at hm
    rcases recElemStep_cases els h2i im n with ⟨h0, cid0, he0, hch0, hl0, heq⟩ |
      ⟨h0, he0, hch0, hl0, heq⟩ | ⟨he0, heq⟩ <;> rw [heq] at hm
    · rcases ih _ _ _ _ _ hm with hold | ⟨n2, hn2, hcid, hel⟩
      · exact Or.inl hold
      · exact Or.inr ⟨n2, List.mem_cons_of_mem _ hn2, hcid, hel⟩
    · rcases ih _ _ _ _ _ hm with hold | ⟨n2, hn2, hcid, hel⟩
      · rcases mem_insertA _ _ _ _ _ hold with hold | ⟨_, hcid⟩
        · exact Or.inl hold
        · exact Or.inr ⟨n, List.mem_cons_self _ _, hcid, he0⟩
      · exact Or.inr ⟨n2, List.mem_cons_of_mem _ hn2, hcid, hel⟩
    · rcases ih _ _ _ _ _ hm with hold | ⟨n2, hn2, hcid, hel⟩
      · exact Or.inl hold
      · exact Or.inr ⟨n2, List.mem_cons_of_mem _ hn2, hcid, hel⟩

def C6Inv (st : RecState) : Prop :=
  (∀ p ∈ st.hashToId, digitLast p.2) ∧
  (∀ q ∈ st.hierarchies, ∀ e ∈ q.2, digitLast e.1 ∧ e.2 ∈ keysA st.elements)

/-- The canonical id assigned by `id_mapping` always ends in a digit. -/
theorem canonEntry_digitLast (pub v b : Str) (H : List (Str × Str)) (n : Node)
    (hn : n ∈ (buildHierarchy pub v b).all_nodes)
    (hcond : n.parent_id ≠ none ∨ dedupEligible n = true)
    (hH : ∀ p ∈ H, digitLast p.2) :
    digitLast (canonEntry H (buildHierarchy pub v b).all_nodes n) := by
  by_cases he : dedupEligible n = true
  · obtain ⟨h, hch⟩ := dedupEligible_hash n he
    unfold canonEntry
    rw [he, hch]
    simp only [if_true]
    cases hl : lookupA H h with
    | some cid => exact hH (h, cid) (lookupA_mem H h cid hl)
    | none =>
      cases hf : firstLeafHash (buildHierarchy pub v b).all_nodes h with
      | some n1 =>
        have hn1 : n1 ∈ (buildHierarchy pub v b).all_nodes :=
          List.mem_of_find?_eq_some hf
        have he1 : dedupEligible n1 = true :=
          (leafHashP_eq_true h n1 (List.find?_some hf)).1
        exact build_node_digitLast pub v b n1 hn1 (Or.inr he1)
      | none => exact build_node_digitLast pub v b n hn (Or.inr he)
  · rw [Bool.not_eq_true] at he
    rw [canonEntry_not_eligible _ _ _ he]
    rcases hcond with hc | hc
    · exact build_node_digitLast pub v b n hn (Or.inl hc)
    · rw [he] at hc
      exact Bool.noConfusion hc

theorem recVersion_C6Inv (pub : Str) (st : RecState) (vb : Str × Str)
    (hinv : C6Inv st) : C6Inv (recVersion pub st vb) := by
  obtain ⟨v, b⟩ := vb
  by_cases hb : b = []
  · subst hb
    rw [recVersion_empty]
    exact hinv
  · rw [recVersion_proc pub st v b hb]
    set ns := (buildHierarchy pub v b).all_nodes with hns
    set im := (recElemLoop (st.elements, st.hashToId, []) ns).2.2 with him
    constructor
    · intro p hp
      rcases recElem_h2i_mem ns _ _ _ p.1 p.2 hp with hold | ⟨n, hn, hcid, hel⟩
      · exact hinv.1 p hold
      · rw [hcid]
        exact build_node_digitLast pub v b n hn (Or.inr hel)
    · intro q hq e he
      rcases mem_insertA _ _ _ _ _ hq with hold | ⟨_, hqq⟩
      · obtain ⟨hd, hk⟩ := hinv.2 q hold e he
        exact ⟨hd, recElem_keys_mono ns _ _ _ _ hk⟩
      · rw [hqq] at he
        rcases recHier_mem ns im [] e.1 e.2 he with habs | ⟨n, hn, pid, hp, hk, hv⟩
        · exact absurd habs (List.not_mem_nil _)
        · have hnodup := buildHierarchy_nodup pub v b
          have himl := recElem_im_lookup ns st.elements st.hashToId [] hnodup n hn
          have hkval : lookupD im n.id n.id = canonEntry st.hashToId ns n := by
            unfold lookupD
            rw [← him] at himl
            rw [himl]
            rfl
          obtain ⟨m, hm, hmid, hms⟩ := build_node_parent pub v b n pid hn hp
          have himp := recElem_im_lookup ns st.elements st.hashToId [] hnodup m hm
          have hpidval : lookupD im pid pid = pid := by
            unfold lookupD
            rw [← him] at himp
            rw [hmid] at himp
            rw [himp, canonEntry_not_eligible _ _ _ (struct_not_eligible m hms), hmid]
            rfl
          constructor
          · rw [hk, hkval]
            exact canonEntry_digitLast pub v b st.hashToId n hn
              (Or.inl (by rw [hp]; exact fun hc => Option.noConfusion hc)) hinv.1
          · rw [hv, hpidval, ← hmid]
            exact recElem_key_all ns _ _ _ m hm (struct_not_eligible m hms)

theorem reconcileAux_C6Inv (pub : Str) (vs : List (Str × Str)) :
    C6Inv (reconcileAux pub vs) := by
  have hgen : ∀ st0 : RecState, C6Inv st0 → C6Inv (vs.foldl (recVersion pub) st0) := by
    induction vs with
    | nil => intro st0 h; exact h
    | cons vb rest ih =>
      intro st0 h
      rw [List.foldl_cons]
      exact ih _ (recVersion_C6Inv pub st0 vb h)
  refine hgen _ ⟨?_, ?_⟩
  · intro p hp
    exact absurd hp (List.not_mem_nil p)
  · intro q hq
    exact absurd hq (List.not_mem_nil q)

/-! ### Node hash well-formedness -/

/-- Every registered node's `content_hash` is the constructor-computed hash
of its content (`HierarchyNode.__init__`). -/
def NodeWF (n : Node) : Prop :=
  n.content_hash = (if n.content ≠ [] then some (computeContentHash n.content) else none)

def NodesWF (b : Builder) : Prop := ∀ n ∈ b.all_nodes, NodeWF n

theorem mkNode_wf (nodeId ntype content title : Str) (level : Nat) (parent : Option Str) :
    NodeWF (mkNode nodeId ntype content title level parent) := rfl

theorem addContentNode_wf (b : Builder) (t : Str) (parent : Node) (content title : Str)
    (hb : NodesWF b) : NodesWF (addContentNode b t parent content title).1 := by
  intro n hn
  rcases List.mem_append.1 hn with h | h
  · exact hb n h
  · rw [List.mem_singleton] at h
    subst h
    exact mkNode_wf _ _ _ _ _ _

theorem processItems_wf (items : List Str) (b : Builder) (listNode : Node)
    (hb : NodesWF b) : NodesWF (processItems b listNode items) := by
  induction items generalizing b with
  | nil => exact hb
  | cons item more ih => exact ih _ (addContentNode_wf _ _ _ _ _ hb)

theorem processEnv_wf (b : Builder) (parent : Node) (env : EnvSpan)
    (hb : NodesWF b) : NodesWF (processEnv b parent env) := by
  unfold processEnv
  by_cases h1 : env.env_type = "equation".data
  · simp only [h1, if_pos rfl]
    exact addContentNode_wf _ _ _ _ _ hb
  · rw [if_neg h1]
    by_cases h2 : env.env_type = "figure".data
    · rw [if_pos h2]
      exact addContentNode_wf _ _ _ _ _ hb
    · rw [if_neg h2]
      by_cases h3 : env.env_type = "list".data
      · rw [if_pos h3]
        exact processItems_wf _ _ _ (addContentNode_wf _ _ _ _ _ hb)
      · rw [if_neg h3]
        exact hb

theorem processEnvs_wf (envs : List EnvSpan) (b : Builder) (parent : Node)
    (hb : NodesWF b) : NodesWF (processEnvs b parent envs) := by
  induction envs generalizing b with
  | nil => exact hb
  | cons e more ih => exact ih _ (processEnv_wf _ _ _ hb)

theorem processSentences_wf (sents : List Str) (b : Builder) (para : Node)
    (hb : NodesWF b) : NodesWF (processSentences b para sents) := by
  induction sents generalizing b with
  | nil => exact hb
  | cons s more ih =>
    unfold processSentences
    by_cases hc : stripChars s ≠ []
    · rw [if_pos hc]
      exact ih _ (addContentNode_wf _ _ _ _ _ hb)
    · rw [if_neg hc]
      exact ih _ hb

theorem processParagraph_wf (b : Builder) (parent : Node) (paraText : Str)
    (hb : NodesWF b) : NodesWF (processParagraph b parent paraText) := by
  unfold processParagraph
  by_cases hc : stripChars paraText = []
  · rw [if_pos hc]
    exact hb
  · rw [if_neg hc]
    exact processSentences_wf _ _ _ (addContentNode_wf _ _ _ _ _ hb)

theorem processParagraphs_wf (paras : List Str) (b : Builder) (parent : Node)
    (hb : NodesWF b) : NodesWF (processParagraphs b parent paras) := by
  induction paras generalizing b with
  | nil => exact hb
  | cons p more ih => exact ih _ (processParagraph_wf _ _ _ hb)

theorem processContentBlock_wf (b : Builder) (content : Str) (parent : Node)
    (hb : NodesWF b) : NodesWF (processContentBlock b content parent) := by
  unfold processContentBlock
  by_cases hc : stripChars (joinSpace (gapParts content 0 (extractEnvironments content))) ≠ []
  · rw [if_pos hc]
    exact processParagraphs_wf _ _ _ (processEnvs_wf _ _ _ hb)
  · rw [if_neg hc]
    exact processEnvs_wf _ _ _ hb

theorem buildSections_wf (sections : List SectionSpan) (b : Builder) (stack : List Node)
    (body : Str) (refPos : Option Nat) (hb : NodesWF b) :
    NodesWF (buildSections b stack sections body refPos) := by
  induction sections generalizing b stack with
  | nil => exact hb
  | cons s more ih =>
    rw [buildSections_cons_eq]
    cases hpop : popStack stack s.level with
    | nil => exact hb
    | cons parent stackRest =>
      refine ih _ _ (processContentBlock_wf _ _ _ ?_)
      intro n hn
      rcases List.mem_append.1 hn with h | h
      · exact hb n h
      · rw [List.mem_singleton] at h
        subst h
        exact mkNode_wf _ _ _ _ _ _

theorem buildHierarchy_wf (pub ver body : Str) : NodesWF (buildHierarchy pub ver body) := by
  unfold buildHierarchy
  have hinit : NodesWF (Builder.mk pub ver [] [mkRoot pub ver]) := by
    intro n hn
    rw [List.mem_singleton] at hn
    subst hn
    exact mkNode_wf _ _ _ _ _ _
  by_cases hc : (extractSections body).takeWhile (fun s => !s.is_references) = []
  · rw [if_pos hc]
    exact processContentBlock_wf _ _ _ hinit
  · rw [if_neg hc]
    exact buildSections_wf _ _ _ _ _ hinit

theorem build_node_hash_norm (pub ver body : Str) (n : Node) (h : Str)
    (hn : n ∈ (buildHierarchy pub ver body).all_nodes)
    (hch : n.content_hash = some h) : h = normalizeText n.content := by
  have hwf := buildHierarchy_wf pub ver body n hn
  unfold NodeWF at hwf
  rw [hch] at hwf
  by_cases hc : n.content ≠ []
  · rw [if_pos hc] at hwf
    rw [Option.some.injEq] at hwf
    exact hwf
  · rw [if_neg hc] at hwf
    exact Option.noConfusion hwf

/-! ### Element value fingerprints (order independence up to normalisation) -/

/-- Normalised values of the `elements` map. -/
def vfp (els : List (Str × Str)) : List Str := els.map (fun e => normalizeText e.2)

/-- The normalised payload each node contributes to the element vocabulary,
independent of processing order. -/
def staticContrib (n : Node) : Str :=
  if dedupEligible n then normalizeText n.content else normalizeText (elemPayload n)

theorem vfp_append (a b : List (Str × Str)) : vfp (a ++ b) = vfp a ++ vfp b := by
  simp [vfp]

theorem recElem_vfp (ns : List Node) :
    ∀ els h2i im, ((ns.map Node.id).Nodup) → (∀ n ∈ ns, n.id ∉ keysA els) →
      (∀ n ∈ ns, ∀ h, n.content_hash = some h → h = normalizeText n.content) →
      (∀ p ∈ h2i, p.1 ∈ (vfp els).toFinset) →
      (vfp ((recElemLoop (els, h2i, im) ns).1)).toFinset =
        (vfp els).toFinset ∪ (ns.map staticContrib).toFinset := by
  induction ns with
  | nil =>
    intro els h2i im _ _ _ _
    simp [recElemLoop]
  | cons n rest ih =>
    intro els h2i im hnodup hdisj hwf hreg
    rw [List.map_cons, List.nodup_cons] at hnodup
    have hdisj2 : ∀ v : Str, ∀ m ∈ rest, m.id ∉ keysA (insertA els n.id v) := by
      intro v m hm hc
      rcases (mem_keysA_insertA _ _ _ _).1 hc with hc | hc
      · exact hdisj m (List.mem_cons_of_mem _ hm) hc
      · exact hnodup.1 (hc ▸ List.mem_map_of_mem Node.id hm)
    have hvfpins : ∀ v : Str, (vfp (insertA els n.id v)).toFinset =
        insert (normalizeText v) (vfp els).toFinset := by
      intro v
      rw [insertA_of_not_mem els n.id v (hdisj n (List.mem_cons_self _ _)), vfp_append]
      rw [List.toFinset_append]
      show _ = insert (normalizeText v) (vfp els).toFinset
      rw [Finset.union_comm]
      rfl
    have hwfrest : ∀ m ∈ rest, ∀ h, m.content_hash = some h →
        h = normalizeText m.content :=
      fun m hm => hwf m (List.mem_cons_of_mem _ hm)
    rw [recElemLoop_cons, List.map_cons, List.toFinset_cons]
    rcases recElemStep_cases els h2i im n with ⟨h0, cid, he0, hch0, hl0, heq⟩ |
      ⟨h0, he0, hch0, hl0, heq⟩ | ⟨he0, heq⟩ <;> rw [heq]
    · rw [ih _ _ _ hnodup.2 (fun m hm => hdisj m (List.mem_cons_of_mem _ hm)) hwfrest hreg]
      have hstat : staticContrib n = h0 := by
        unfold staticContrib
        rw [if_pos he0, ← hwf n (List.mem_cons_self _ _) h0 hch0]
      have hmem : h0 ∈ (vfp els).toFinset := hreg (h0, cid) (lookupA_mem h2i h0 cid hl0)
      rw [hstat, Finset.union_insert, Finset.insert_eq_self.2 (Finset.mem_union_left _ hmem)]
    · have hstat : staticContrib n = h0 := by
        unfold staticContrib
        rw [if_pos he0, ← hwf n (List.mem_cons_self _ _) h0 hch0]
      have hregnew : ∀ p ∈ insertA h2i h0 n.id,
          p.1 ∈ (vfp (insertA els n.id n.content)).toFinset := by
        intro p hp
        rcases mem_insertA _ _ _ _ _ hp with hp | ⟨hp1, _⟩
        · rw [hvfpins n.content]
          exact Finset.mem_insert_of_mem (hreg p hp)
        · rw [hvfpins n.content, hp1]
          rw [← hwf n (List.mem_cons_self _ _) h0 hch0] at *
          exact Finset.mem_insert_self _ _
      rw [ih _ _ _ hnodup.2 (hdisj2 _) hwfrest hregnew, hvfpins n.content]
      rw [hstat, ← hwf n (List.mem_cons_self _ _) h0 hch0]
      rw [Finset.insert_union, Finset.union_insert]
    · have hstat : staticContrib n = normalizeText (elemPayload n) := by
        unfold staticContrib
        rw [if_neg (by rw [he0]; exact Bool.noConfusion)]
      have hregnew : ∀ p ∈ h2i,
          p.1 ∈ (vfp (insertA els n.id (elemPayload n))).toFinset := by
        intro p hp
        rw [hvfpins (elemPayload n)]
        exact Finset.mem_insert_of_mem (hreg p hp)
      rw [ih _ _ _ hnodup.2 (hdisj2 _) hwfrest hregnew, hvfpins (elemPayload n)]
      rw [hstat, Finset.insert_union, Finset.union_insert]

/-! ### Canonical identifier resolution across versions -/

theorem processedNodes_mem_intro (pub : Str) (vs : List (Str × Str)) (v b : Str) (n : Node)
    (hvb : (v, b) ∈ vs) (hb : b ≠ []) (hn : n ∈ (buildHierarchy pub v b).all_nodes) :
    n ∈ processedNodes pub vs := by
  induction vs with
  | nil => exact absurd hvb (List.not_mem_nil _)
  | cons vb2 rest ih =>
    obtain ⟨v2, b2⟩ := vb2
    rw [processedNodes_cons]
    rcases List.mem_cons.1 hvb with heq | hmem
    · rw [Prod.mk.injEq] at heq
      obtain ⟨h1, h2⟩ := heq
      subst h1
      subst h2
      rw [if_neg hb]
      exact List.mem_append_left _ hn
    · exact List.mem_append_right _ (ih hmem)

theorem dedupEligible_content_ne (n : Node) (he : dedupEligible n = true) :
    n.content ≠ [] := by
  unfold dedupEligible at he
  rw [Bool.and_eq_true, Bool.and_eq_true] at he
  exact of_decide_eq_true he.1.1

theorem build_eligible_parent (pub ver body : Str) (n : Node)
    (hn : n ∈ (buildHierarchy pub ver body).all_nodes) (he : dedupEligible n = true) :
    ∃ pid, n.parent_id = some pid := by
  obtain ⟨rest, hrest, hall⟩ := buildHierarchy_shape pub ver body
  rw [hrest] at hn
  rcases List.mem_cons.1 hn with heq | hmem
  · subst heq
    rw [dedupEligible_mkRoot] at he
    exact Bool.noConfusion he
  · obtain ⟨_, _, pid, hpid, _⟩ := hall n hmem
    exact ⟨pid, hpid⟩

theorem countP_eq_one_of_nodup (l : List Str) (k : Str) (hnd : l.Nodup) (hk : k ∈ l) :
    l.countP (fun x => x = k) = 1 := by
  induction l with
  | nil => exact absurd hk (List.not_mem_nil k)
  | cons a rest ih =>
    rw [List.nodup_cons] at hnd
    rw [List.countP_cons]
    rcases List.mem_cons.1 hk with heq | hmem
    · have h0 : rest.countP (fun x => x = k) = 0 := by
        rw [List.countP_eq_zero]
        intro x hx
        simp only [decide_eq_true_eq]
        intro hc
        apply hnd.1
        rw [← heq, ← hc]
        exact hx
      rw [h0]
      simp [heq.symm]
    · have hne : ¬ (a = k) := fun hc => hnd.1 (hc ▸ hmem)
      rw [ih hnd.2 hmem]
      simp [hne]

theorem mem_id_inj (PN : List Node) (hnodup : (PN.map Node.id).Nodup)
    (a b : Node) (ha : a ∈ PN) (hb : b ∈ PN) (hid : a.id = b.id) : a = b :=
  List.inj_on_of_nodup_map hnodup ha hb hid

/-- Within the global processing order `PNpre ++ (nsv ++ PNpost)`, a node of
the middle version maps to the global canonical id of fingerprint `h` exactly
when it is a dedup-eligible carrier of `h`. -/
theorem canon_resolve (PNpre nsv PNpost : List Node) (H1 : List (Str × Str)) (h : Str)
    (n0 : Node)
    (hH1 : ∀ h2, lookupA H1 h2 = (firstLeafHash PNpre h2).map Node.id)
    (hnodup : ((PNpre ++ (nsv ++ PNpost)).map Node.id).Nodup)
    (hn0 : firstLeafHash (PNpre ++ (nsv ++ PNpost)) h = some n0) :
    ∀ m ∈ nsv, (canonEntry H1 nsv m = n0.id ↔
      (dedupEligible m = true ∧ m.content_hash = some h)) := by
  have hn0mem : n0 ∈ PNpre ++ (nsv ++ PNpost) := List.mem_of_find?_eq_some hn0
  have hn0p := leafHashP_eq_true h n0 (List.find?_some hn0)
  intro m hm
  have hmmem : m ∈ PNpre ++ (nsv ++ PNpost) :=
    List.mem_append.2 (Or.inr (List.mem_append.2 (Or.inl hm)))
  constructor
  · intro hc
    by_cases he : dedupEligible m = true
    · obtain ⟨h2, hch2⟩ := dedupEligible_hash m he
      unfold canonEntry at hc
      rw [he, hch2] at hc
      simp only [if_true] at hc
      rw [hH1 h2] at hc
      have hres : ∃ q, q ∈ PNpre ++ (nsv ++ PNpost) ∧ q.id = n0.id ∧
          dedupEligible q = true ∧ q.content_hash = some h2 := by
        cases hf1 : firstLeafHash PNpre h2 with
        | some q =>
          rw [hf1] at hc
          have hc2 : q.id = n0.id := hc
          have hqp := leafHashP_eq_true h2 q (List.find?_some hf1)
          exact ⟨q, List.mem_append.2 (Or.inl (List.mem_of_find?_eq_some hf1)),
            hc2, hqp.1, hqp.2⟩
        | none =>
          rw [hf1] at hc
          cases hf2 : firstLeafHash nsv h2 with
          | some q =>
            rw [hf2] at hc
            have hc2 : q.id = n0.id := hc
            have hqp := leafHashP_eq_true h2 q (List.find?_some hf2)
            exact ⟨q, List.mem_append.2 (Or.inr (List.mem_append.2
              (Or.inl (List.mem_of_find?_eq_some hf2)))), hc2, hqp.1, hqp.2⟩
          | none =>
            rw [hf2] at hc
            have hc2 : m.id = n0.id := hc
            exact ⟨m, hmmem, hc2, he, hch2⟩
      obtain ⟨q, hqmem, hqid, hqe, hqch⟩ := hres
      have hqn0 : q = n0 := mem_id_inj _ hnodup q n0 hqmem hn0mem hqid
      subst hqn0
      rw [hn0p.2] at hqch
      rw [Option.some.injEq] at hqch
      rw [← hqch] at hch2
      exact ⟨he, hch2⟩
    · rw [Bool.not_eq_true] at he
      rw [canonEntry_not_eligible _ _ _ he] at hc
      have hmn0 : m = n0 := mem_id_inj _ hnodup m n0 hmmem hn0mem hc
      subst hmn0
      rw [hn0p.1] at he
      exact Bool.noConfusion he
  · rintro ⟨he, hch⟩
    unfold canonEntry
    rw [he, hch]
    simp only [if_true]
    rw [hH1 h]
    rw [firstLeafHash_append, firstLeafHash_append] at hn0
    cases hf1 : firstLeafHash PNpre h with
    | some q =>
      rw [hf1] at hn0
      have hn0q : some q = some n0 := hn0
      rw [Option.some.injEq] at hn0q
      show q.id = n0.id
      rw [hn0q]
    | none =>
      rw [hf1] at hn0
      have hfv : firstLeafHash nsv h = some n0 := by
        cases hf2 : firstLeafHash nsv h with
        | some q =>
          rw [hf2] at hn0
          have hq : some q = some n0 := hn0
          rw [← hq]
        | none =>
          exfalso
          unfold firstLeafHash at hf2
          rw [List.find?_eq_none] at hf2
          exact hf2 m hm (leafHashP_of h m he hch)
      show ((firstLeafHash nsv h).map Node.id).getD m.id = n0.id
      rw [hfv]
      rfl

/-! ### Permutation invariance of the processed node pool -/

theorem processedNodes_perm (pub : Str) (vs1 vs2 : List (Str × Str))
    (hp : vs1.Perm vs2) :
    (processedNodes pub vs1).Perm (processedNodes pub vs2) := by
  induction hp with
  | nil => exact List.Perm.refl _
  | cons x h ih =>
    obtain ⟨v, b⟩ := x
    rw [processedNodes_cons, processedNodes_cons]
    exact ih.append_left _
  | swap x y l =>
    obtain ⟨v1, b1⟩ := x
    obtain ⟨v2, b2⟩ := y
    rw [processedNodes_cons, processedNodes_cons,
      processedNodes_cons, processedNodes_cons,
      ← List.append_assoc, ← List.append_assoc]
    exact List.perm_append_comm.append_right _
  | trans h1 h2 ih1 ih2 => exact ih1.trans ih2

/-- The set of normalised element values of the reconciled `elements` map is
determined by the pool of processed nodes, independently of order. -/
theorem reconcile_vfp (pub : Str) (vs : List (Str × Str))
    (hv : (vs.map Prod.fst).Nodup) :
    (vfp (reconcileAux pub vs).elements).toFinset =
      ((processedNodes pub vs).map staticContrib).toFinset := by
  have h1 := (foldl_elements_hash pub vs ⟨[], [], [], []⟩).1
  rw [reconcileAux, h1]
  have hwf : ∀ n ∈ processedNodes pub vs, ∀ h, n.content_hash = some h →
      h = normalizeText n.content := by
    intro n hn h hch
    obtain ⟨v, b, _, _, hnb⟩ := processedNodes_mem pub vs n hn
    exact build_node_hash_norm pub v b n h hnb hch
  rw [recElem_vfp (processedNodes pub vs) [] [] []
    (processedNodes_nodup pub vs hv)
    (fun n _ hc => absurd hc (List.not_mem_nil _))
    hwf
    (fun p hp => absurd hp (List.not_mem_nil p))]
  simp [vfp]

/-! ### Environment span structure (first matching close of the same name) -/

theorem takeWhile_drop (P : Char → Bool) (l : Str) :
    l.drop (l.takeWhile P).length = l.dropWhile P := by
  induction l with
  | nil => rfl
  | cons c rest ih =>
    rw [List.takeWhile_cons, List.dropWhile_cons]
    cases hp : P c with
    | true => simpa using ih
    | false => simp

theorem take_app (l1 l2 : Str) (b : Nat) :
    (l1 ++ l2).take (l1.length + b) = l1 ++ l2.take b := by
  rw [List.take_append_eq_append_take, List.take_of_length_le (by omega),
    Nat.add_sub_cancel_left]

theorem findSub_prefix (pat : Str) :
    ∀ s k, findSub pat s = some k → pat.isPrefixOf (s.drop k) = true := by
  intro s
  induction s with
  | nil =>
    intro k h
    unfold findSub at h
    by_cases hp : pat.isEmpty = true
    · rw [if_pos hp, Option.some.injEq] at h
      subst h
      cases pat with
      | nil => rfl
      | cons c cs => simp [List.isEmpty] at hp
    · rw [if_neg hp] at h
      exact Option.noConfusion h
  | cons c rest ih =>
    intro k h
    unfold findSub at h
    by_cases hp : pat.isPrefixOf (c :: rest) = true
    · rw [if_pos hp, Option.some.injEq] at h
      subst h
      exact hp
    · rw [if_neg hp] at h
      cases hf : findSub pat rest with
      | none => rw [hf] at h; exact Option.noConfusion h
      | some k0 =>
        rw [hf, Option.map_some'] at h
        rw [Option.some.injEq] at h
        subst h
        exact ih k0 hf

theorem findSub_min (pat : Str) :
    ∀ s k, findSub pat s = some k → ∀ j, j < k → pat.isPrefixOf (s.drop j) = false := by
  intro s
  induction s with
  | nil =>
    intro k h j hj
    unfold findSub at h
    by_cases hp : pat.isEmpty = true
    · rw [if_pos hp, Option.some.injEq] at h
      omega
    · rw [if_neg hp] at h
      exact Option.noConfusion h
  | cons c rest ih =>
    intro k h j hj
    unfold findSub at h
    by_cases hp : pat.isPrefixOf (c :: rest) = true
    · rw [if_pos hp, Option.some.injEq] at h
      omega
    · rw [if_neg hp] at h
      cases hf : findSub pat rest with
      | none => rw [hf] at h; exact Option.noConfusion h
      | some k0 =>
        rw [hf, Option.map_some', Option.some.injEq] at h
        cases j with
        | zero =>
          show pat.isPrefixOf (c :: rest) = false
          exact Bool.eq_false_iff.2 hp
        | succ j0 =>
          show pat.isPrefixOf (rest.drop j0) = false
          exact ih k0 hf j0 (by omega)

theorem containsSub_exists (pat : Str) :
    ∀ s, containsSub pat s = true → ∃ j, pat.isPrefixOf (s.drop j) = true := by
  intro s
  induction s with
  | nil =>
    intro h
    unfold containsSub at h
    refine ⟨0, ?_⟩
    cases pat with
    | nil => rfl
    | cons c cs => simp [List.isEmpty] at h
  | cons c rest ih =>
    intro h
    unfold containsSub at h
    rw [Bool.or_eq_true] at h
    rcases h with h | h
    · exact ⟨0, h⟩
    · obtain ⟨j, hj⟩ := ih h
      exact ⟨j + 1, hj⟩

theorem endTag_ne_nil (name : Str) : endTag name ≠ [] := by
  intro h
  exact List.noConfusion h


theorem matchEnvAt_spec (cs name content : Str) (len : Nat)
    (h : matchEnvAt cs = some (name, content, len)) :
    cs.take len = "\\begin\x7b".data ++ (name ++ '\x7d' :: (content ++ endTag name)) ∧
    containsSub (endTag name) content = false ∧ name ≠ [] := by
  unfold matchEnvAt at h
  by_cases hpre : "\\begin\x7b".data.isPrefixOf cs = true
  · rw [if_pos hpre] at h
    simp only [] at h
    by_cases hn0 : (cs.drop 7).takeWhile (fun c => isEnvNameChar c) = []
    · rw [if_pos hn0] at h
      exact Option.noConfusion h
    · rw [if_neg hn0] at h
      split at h
      · rename_i r2 hdr
        split at h
        · rename_i k hfs
          rw [Option.some.injEq, Prod.mk.injEq, Prod.mk.injEq] at h
          obtain ⟨hname, hcontent, hlen⟩ := h
          rw [hname] at hdr hfs hn0 hlen
          subst hcontent
          subst hlen
          have hfp := findSub_prefix _ _ _ hfs
          have hklt : k < r2.length := by
            by_contra hge
            push_neg at hge
            rw [List.drop_eq_nil_iff.2 hge] at hfp
            cases hetag : endTag name with
            | nil => exact endTag_ne_nil name hetag
            | cons a as =>
              rw [hetag] at hfp
              exact Bool.noConfusion hfp
          have hcs : "\\begin\x7b".data ++ cs.drop 7 = cs := by
            have hl7 : ("\\begin\x7b".data).length = 7 := rfl
            have h2 := (List.prefix_iff_eq_append).1 (List.isPrefixOf_iff_prefix.1 hpre)
            rw [hl7] at h2
            exact h2
          have hr : cs.drop 7 = name ++ '\x7d' :: r2 := by
            have h3 := List.takeWhile_append_dropWhile
              (p := fun c => isEnvNameChar c) (l := cs.drop 7)
            rw [← takeWhile_drop] at h3
            rw [hname] at h3
            rw [hdr] at h3
            exact h3.symm
          have htag : (r2.drop k).take (endTag name).length = endTag name :=
            ((List.prefix_iff_eq_take).1 (List.isPrefixOf_iff_prefix.1 hfp)).symm
          refine ⟨?_, ?_, hn0⟩
          · rw [← hcs, hr]
            have hlen2 : 7 + name.length + 1 + k + (endTag name).length =
                ("\\begin\x7b".data).length +
                  (name.length + (1 + (k + (endTag name).length))) := by
              have h2 : ("\\begin\x7b".data).length = 7 := rfl
              rw [h2]
              omega
            rw [hlen2, take_app]
            congr 1
            rw [List.take_append_eq_append_take, List.take_of_length_le (by omega),
              Nat.add_sub_cancel_left]
            congr 1
            have h2 : 1 + (k + (endTag name).length) = (k + (endTag name).length) + 1 := by
              omega
            rw [h2, List.take_succ_cons]
            congr 1
            rw [List.take_add, htag]
          · by_contra hcontra
            rw [Bool.not_eq_false] at hcontra
            obtain ⟨j, hj⟩ := containsSub_exists _ _ hcontra
            have hjlt : j < k := by
              by_contra hge
              push_neg at hge
              have h2 : (r2.take k).drop j = [] := by
                rw [List.drop_eq_nil_iff, List.length_take]
                omega
              rw [h2] at hj
              cases hetag : endTag name with
              | nil => exact endTag_ne_nil name hetag
              | cons a as =>
                rw [hetag] at hj
                exact Bool.noConfusion hj
            have hjfull : (endTag name).isPrefixOf (r2.drop j) = true := by
              rw [List.isPrefixOf_iff_prefix] at hj ⊢
              refine hj.trans ?_
              rw [List.drop_take]
              exact List.take_prefix _ _
            have h2 := findSub_min _ _ _ hfs j hjlt
            rw [h2] at hjfull
            exact Bool.noConfusion hjfull
        · exact Option.noConfusion h
      · exact Option.noConfusion h
  · rw [if_neg hpre] at h
    exact Option.noConfusion h

theorem extractEnvsGo_spec :
    ∀ f cs pos e, e ∈ extractEnvsGo f cs pos →
      e.full_content =
        "\\begin\x7b".data ++ (e.env_name ++ '\x7d' :: (e.content ++ endTag e.env_name)) ∧
      containsSub (endTag e.env_name) e.content = false ∧ e.env_name ≠ [] := by
  intro f
  induction f with
  | zero => intro cs pos e he; exact absurd he (List.not_mem_nil e)
  | succ f ih =>
    intro cs pos e he
    cases cs with
    | nil => exact absurd he (List.not_mem_nil e)
    | cons c rest =>
      have he2 : e ∈ ((match matchEnvAt (c :: rest) with
        | some (name, content, len) =>
          { env_name := name, env_type := envTypeOf name, content := content,
            full_content := (c :: rest).take len, position := pos, endPos := pos + len }
            :: extractEnvsGo f ((c :: rest).drop len) (pos + len)
        | none => extractEnvsGo f rest (pos + 1) : List EnvSpan)) := he
      cases hm : matchEnvAt (c :: rest) with
      | none =>
        rw [hm] at he2
        exact ih rest (pos + 1) e he2
      | some v =>
        obtain ⟨nm, ct, ln⟩ := v
        rw [hm] at he2
        rcases List.mem_cons.1 he2 with heq | hmem
        · subst heq
          exact matchEnvAt_spec (c :: rest) nm ct ln hm
        · exact ih _ _ e hmem

/-! ### Head section match (title truncation at the first closing brace) -/

theorem takeWhile_ne_brace (t rest : Str) (h : ∀ c ∈ t, c ≠ '\x7d') :
    (t ++ '\x7d' :: rest).takeWhile (fun c => c ≠ '\x7d') = t := by
  induction t with
  | nil =>
    show ('\x7d' :: rest).takeWhile (fun c => c ≠ '\x7d') = []
    rw [List.takeWhile_cons]
    simp
  | cons c t2 ih =>
    rw [List.cons_append, List.takeWhile_cons]
    have hc : decide (c ≠ '\x7d') = true := by
      rw [decide_eq_true_eq]
      exact h c (List.mem_cons_self _ _)
    rw [hc]
    simp only [if_true]
    rw [ih (fun x hx => h x (List.mem_cons_of_mem _ hx))]

theorem parseAfterCmd_section (t rest : Str) (ht : t ≠ []) (hbf : ∀ c ∈ t, c ≠ '\x7d') :
    parseAfterCmd "section".data ("section\x7b".data ++ (t ++ '\x7d' :: rest)) =
      some (false, t, 9 + t.length) := by
  have hgoal : parseAfterCmd "section".data ("section\x7b".data ++ (t ++ '\x7d' :: rest)) =
      (if (t ++ '\x7d' :: rest).takeWhile (fun c => c ≠ '\x7d') = [] then none
       else match (t ++ '\x7d' :: rest).drop
          ((t ++ '\x7d' :: rest).takeWhile (fun c => c ≠ '\x7d')).length with
        | '\x7d' :: _ =>
          some (false, (t ++ '\x7d' :: rest).takeWhile (fun c => c ≠ '\x7d'),
            "section".data.length + (if false then 1 else 0) + 1 +
              ((t ++ '\x7d' :: rest).takeWhile (fun c => c ≠ '\x7d')).length + 1)
        | _ => none) := rfl
  rw [hgoal, takeWhile_ne_brace t rest hbf, if_neg ht, List.drop_left]
  have hX : "section".data.length + (if false then 1 else 0) + 1 + t.length + 1 =
      9 + t.length := by
    have h7 : "section".data.length = 7 := rfl
    rw [h7, if_neg (fun hc => Bool.noConfusion hc)]
    omega
  rw [hX]
  rfl

theorem tryCmds_section (t rest : Str) (ht : t ≠ []) (hbf : ∀ c ∈ t, c ≠ '\x7d') :
    tryCmds sectionLevels ("section\x7b".data ++ (t ++ '\x7d' :: rest)) =
      some ("section".data, false, t, 9 + t.length) := by
  have h1 : tryCmds sectionLevels ("section\x7b".data ++ (t ++ '\x7d' :: rest)) =
      (match parseAfterCmd "section".data ("section\x7b".data ++ (t ++ '\x7d' :: rest)) with
       | some (star, t2, len) => some ("section".data, star, t2, len)
       | none => tryCmds
           [("subsection".data, 2), ("subsubsection".data, 3),
            ("paragraph".data, 4), ("subparagraph".data, 5)]
           ("section\x7b".data ++ (t ++ '\x7d' :: rest))) := rfl
  rw [h1, parseAfterCmd_section t rest ht hbf]

theorem matchSectionAt_head (t rest : Str) (ht : t ≠ []) (hbf : ∀ c ∈ t, c ≠ '\x7d') :
    matchSectionAt ("\\section\x7b".data ++ (t ++ '\x7d' :: rest)) =
      some ("section".data, false, t, 10 + t.length) := by
  have h0 : matchSectionAt ("\\section\x7b".data ++ (t ++ '\x7d' :: rest)) =
      (match tryCmds sectionLevels ("section\x7b".data ++ (t ++ '\x7d' :: rest)) with
       | some (name, star, t2, len) => some (name, star, t2, len + 1)
       | none => none) := rfl
  rw [h0, tryCmds_section t rest ht hbf]
  show some ("section".data, false, t, 9 + t.length + 1) = _
  have h2 : 9 + t.length + 1 = 10 + t.length := by omega
  rw [h2]

/-- C10: a sectioning command whose brace argument contains an inner closing
brace is reported with its title truncated at the first closing brace, and the
heading's end is the position right after that brace (the rest of the intended
title is left to the following content block).  `t` is the brace-free part of
the title (it may contain inner opening braces), `rest` the remainder of the
document after the first closing brace. -/
theorem C10_title_truncated (t rest : Str) (ht : t ≠ [])
    (hbf : ∀ c ∈ t, c ≠ '\x7d') (href : isRefTitle t = false) :
    ∃ tl, extractSections ("\\section\x7b".data ++ (t ++ '\x7d' :: rest)) =
      { command := '\\' :: "section".data, title := t, level := 1, position := 0,
        endPos := 10 + t.length, is_unnumbered := false,
        include_unnumbered := isInclTitle t, is_references := false } :: tl := by
  have h2 : rawSectionsGo (("\\section\x7b".data ++ (t ++ '\x7d' :: rest)).length + 1)
      ("\\section\x7b".data ++ (t ++ '\x7d' :: rest)) 0 =
      (match matchSectionAt ("\\section\x7b".data ++ (t ++ '\x7d' :: rest)) with
       | some (name, star, t2, len) =>
         { cmdName := name, starred := star, title := t2, position := 0,
           endPos := 0 + len } ::
           rawSectionsGo (("\\section\x7b".data ++ (t ++ '\x7d' :: rest)).length)
             (("\\section\x7b".data ++ (t ++ '\x7d' :: rest)).drop len) (0 + len)
       | none => rawSectionsGo (("\\section\x7b".data ++ (t ++ '\x7d' :: rest)).length)
           ("section\x7b".data ++ (t ++ '\x7d' :: rest)) (0 + 1)) := rfl
  have h1 : rawSections ("\\section\x7b".data ++ (t ++ '\x7d' :: rest)) =
      { cmdName := "section".data, starred := false, title := t, position := 0,
        endPos := 0 + (10 + t.length) } ::
        rawSectionsGo (("\\section\x7b".data ++ (t ++ '\x7d' :: rest)).length)
          (("\\section\x7b".data ++ (t ++ '\x7d' :: rest)).drop (10 + t.length))
          (0 + (10 + t.length)) := by
    unfold rawSections
    rw [h2, matchSectionAt_head t rest ht hbf]
  have hcs : classifySpan
      (RawSection.mk "section".data false t 0 (0 + (10 + t.length))) =
      some (SectionSpan.mk ('\\' :: "section".data) t 1 0 (0 + (10 + t.length))
        false (isInclTitle t) false) := by
    unfold classifySpan
    rw [href]
    simp only [Bool.false_eq_true, if_false]
    rw [if_neg (by rw [Bool.false_and]; exact Bool.noConfusion)]
    rfl
  refine ⟨(rawSectionsGo (("\\section\x7b".data ++ (t ++ '\x7d' :: rest)).length)
    (("\\section\x7b".data ++ (t ++ '\x7d' :: rest)).drop (10 + t.length))
    (0 + (10 + t.length))).filterMap classifySpan, ?_⟩
  unfold extractSections
  rw [h1, List.filterMap_cons, hcs, Nat.zero_add]

/-- C7 (amended): a starred heading that is not classified as a
references/bibliography heading is kept by `extract_sections` exactly when its
lowercased title contains an entry of the unnumbered-sections allow-list as a
substring; the kept span carries the heading's title. -/
theorem C7_starred_allowlist (content : Str) (m : RawSection)
    (hm : m ∈ rawSections content) (hstar : m.starred = true)
    (href : isRefTitle m.title = false) :
    (∃ s, classifySpan m = some s ∧ s ∈ extractSections content ∧ s.title = m.title) ↔
      isInclTitle m.title = true := by
  constructor
  · rintro ⟨s, hs, _, _⟩
    by_cases hi : isInclTitle m.title = true
    · exact hi
    · exfalso
      rw [Bool.not_eq_true] at hi
      unfold classifySpan at hs
      rw [href] at hs
      simp only [Bool.false_eq_true, if_false] at hs
      rw [if_pos (by rw [hstar, hi]; rfl)] at hs
      exact Option.noConfusion hs
  · intro hi
    have hs : classifySpan m =
        some (SectionSpan.mk ('\\' :: m.cmdName) m.title
          (lookupD sectionLevels m.cmdName 1) m.position m.endPos m.starred
          (isInclTitle m.title) false) := by
      unfold classifySpan
      rw [href]
      simp only [Bool.false_eq_true, if_false]
      rw [if_neg (fun hc => by rw [hstar, hi] at hc; exact Bool.noConfusion hc)]
    refine ⟨_, hs, ?_, rfl⟩
    unfold extractSections
    exact List.mem_filterMap.2 ⟨m, hm, hs⟩

/-- C9: within one build, the per-type counter strictly increases, so two
calls of the id generator with the same (element_type, parent) pair return
distinct identifier strings; the root document node's identifier is
`rootIdOf pub ver`, a function of publication id and version alone. -/
theorem C9_generator (b c : Builder) (t : Str) (p : Option Str)
    (pub ver body : Str)
    (hpub : c.pub = b.pub) (hver : c.ver = b.ver)
    (hlt : lookupD b.counter t 0 < lookupD c.counter t 0) :
    (getNextId b t p).1 ≠ (getNextId c t p).1 ∧
    ∃ rest, (buildHierarchy pub ver body).all_nodes = mkRoot pub ver :: rest ∧
      (mkRoot pub ver).id = rootIdOf pub ver := by
  constructor
  · intro hc
    unfold getNextId at hc
    simp only [] at hc
    rw [hpub, hver] at hc
    unfold generateElementId at hc
    cases p with
    | some pid =>
      have h2 := List.append_cancel_left hc
      rw [List.cons.injEq] at h2
      have h3 := List.append_cancel_left h2.2
      rw [List.cons.injEq] at h3
      have h4 := natDecimal_inj _ _ h3.2
      omega
    | none =>
      have h2 := List.append_cancel_left hc
      rw [List.cons.injEq] at h2
      have h3 := List.append_cancel_left h2.2
      rw [List.cons.injEq] at h3
      have h4 := List.append_cancel_left h3.2
      rw [List.cons.injEq] at h4
      have h5 := natDecimal_inj _ _ h4.2
      omega
  · obtain ⟨rest, hrest, hall⟩ := buildHierarchy_shape pub ver body
    exact ⟨rest, hrest, rfl⟩

/-- C6: in the reconciled output, every parent identifier stored as a value of
a version's hierarchy map is a key of the elements map, and no hierarchy key
is ever a root document identifier (child keys end in a digit, root ids do
not). -/
theorem C6_no_dangling (pub : Str) (vs : List (Str × Str)) (v : Str)
    (hier : List (Str × Str)) (ckey pval : Str)
    (hq : (v, hier) ∈ (buildHierarchyFromVersions pub vs).hierarchy)
    (he : (ckey, pval) ∈ hier) (p2 v2 : Str) :
    pval ∈ keysA (buildHierarchyFromVersions pub vs).elements ∧
      ckey ≠ rootIdOf p2 v2 := by
  have hinv := reconcileAux_C6Inv pub vs
  have hq2 : (v, hier) ∈ (reconcileAux pub vs).hierarchies := hq
  obtain ⟨hd, hk⟩ := hinv.2 (v, hier) hq2 (ckey, pval) he
  refine ⟨hk, ?_⟩
  intro hc
  rw [hc] at hd
  exact absurd hd (rootId_not_digitLast p2 v2)

/-- C3 (amended): every non-root node of a processed version is represented
in that version's hierarchy map through its canonical identifier: the
canonical id of the node is a key of the version's hierarchy dictionary (a
node deduplicated against an earlier one shares that earlier node's entry). -/
theorem C3_canonical_key (pub : Str) (vs : List (Str × Str)) (v b : Str)
    (n : Node) (pid : Str)
    (hnodup : (vs.map Prod.fst).Nodup) (hm : (v, b) ∈ vs) (hb : b ≠ [])
    (hn : n ∈ (buildHierarchy pub v b).all_nodes) (hp : n.parent_id = some pid) :
    ∃ im hier, lookupA (reconcileAux pub vs).idMaps v = some im ∧
      lookupA (reconcileAux pub vs).hierarchies v = some hier ∧
      lookupD im n.id n.id ∈ keysA hier := by
  obtain ⟨stPre, ⟨pre, post, hsplit, hpre⟩, him, hhier⟩ :=
    reconcile_version_state pub vs ⟨[], [], [], []⟩ v b hm hnodup hb
  refine ⟨_, _, him, hhier, ?_⟩
  exact recHier_key_present _ _ _ n pid hn hp

/-- C4 (amended): reordering the versions of a publication leaves the SET of
normalised element values of the reconciled `elements` map unchanged (the raw
stored values may differ by whitespace, since the canonical carrier of a
fingerprint may change). -/
theorem C4_vocabulary_order_independent (pub : Str) (vs1 vs2 : List (Str × Str))
    (hp : vs1.Perm vs2) (hv : (vs1.map Prod.fst).Nodup) :
    (vfp (reconcileAux pub vs1).elements).toFinset =
      (vfp (reconcileAux pub vs2).elements).toFinset := by
  have hv2 : (vs2.map Prod.fst).Nodup := (hp.map Prod.fst).nodup_iff.1 hv
  rw [reconcile_vfp pub vs1 hv, reconcile_vfp pub vs2 hv2]
  exact List.toFinset_eq_of_perm _ _
    ((processedNodes_perm pub vs1 vs2 hp).map staticContrib)

/-- The version containing the unique in-version carrier `n1` of fingerprint
`h` gets a hierarchy entry mapping the global canonical id (the first
processed carrier `n0`) to `n1`'s structural parent. -/
theorem version_hier_entry (pub : Str) (vs : List (Str × Str)) (v b : Str)
    (n1 n0 : Node) (h : Str)
    (hnodup : (vs.map Prod.fst).Nodup) (hm : (v, b) ∈ vs) (hb : b ≠ [])
    (hn1 : n1 ∈ (buildHierarchy pub v b).all_nodes)
    (he1 : dedupEligible n1 = true) (hch1 : n1.content_hash = some h)
    (hu : ∀ m ∈ (buildHierarchy pub v b).all_nodes, leafHashP h m = true → m = n1)
    (hn0 : firstLeafHash (processedNodes pub vs) h = some n0) :
    ∃ pid hier, n1.parent_id = some pid ∧
      lookupA (reconcileAux pub vs).hierarchies v = some hier ∧
      lookupA hier n0.id = some pid := by
  obtain ⟨pid, hpid⟩ := build_eligible_parent pub v b n1 hn1 he1
  obtain ⟨stPre, ⟨pre, post, hsplit, hpre⟩, him, hhier⟩ :=
    reconcile_version_state pub vs ⟨[], [], [], []⟩ v b hm hnodup hb
  set ns := (buildHierarchy pub v b).all_nodes with hns
  set im := (recElemLoop (stPre.elements, stPre.hashToId, []) ns).2.2 with him2
  refine ⟨pid, recHierLoop im [] ns, hpid, hhier, ?_⟩
  have hpreST : stPre.hashToId =
      (recElemLoop ([], [], []) (processedNodes pub pre)).2.1 := by
    rw [hpre]
    exact (foldl_elements_hash pub pre ⟨[], [], [], []⟩).2
  have hH1 : ∀ h2, lookupA stPre.hashToId h2 =
      (firstLeafHash (processedNodes pub pre) h2).map Node.id := by
    intro h2
    rw [hpreST, recElem_h2i]
    rfl
  have hPN : processedNodes pub vs =
      processedNodes pub pre ++ (ns ++ processedNodes pub post) := by
    rw [hsplit, processedNodes_append, processedNodes_cons, if_neg hb]
  have hPNnodup : ((processedNodes pub pre ++ (ns ++ processedNodes pub post)).map
      Node.id).Nodup := by
    rw [← hPN]
    exact processedNodes_nodup pub vs hnodup
  have hn0b : firstLeafHash (processedNodes pub pre ++ (ns ++ processedNodes pub post)) h
      = some n0 := by
    rw [← hPN]
    exact hn0
  have hcanon := canon_resolve (processedNodes pub pre) ns (processedNodes pub post)
    stPre.hashToId h n0 hH1 hPNnodup hn0b
  have hbnodup := buildHierarchy_nodup pub v b
  have hkey : lookupD im n1.id n1.id = n0.id := by
    have h2 := recElem_im_lookup ns stPre.elements stPre.hashToId [] hbnodup n1 hn1
    rw [← him2] at h2
    unfold lookupD
    rw [h2]
    show canonEntry stPre.hashToId ns n1 = n0.id
    exact (hcanon n1 hn1).2 ⟨he1, hch1⟩
  obtain ⟨mp, hmp, hmpid, hmps⟩ := build_node_parent pub v b n1 pid hn1 hpid
  have hpidval : lookupD im pid pid = pid := by
    have h2 := recElem_im_lookup ns stPre.elements stPre.hashToId [] hbnodup mp hmp
    rw [← him2] at h2
    rw [hmpid] at h2
    unfold lookupD
    rw [h2, canonEntry_not_eligible _ _ _ (struct_not_eligible mp hmps), hmpid]
    rfl
  rw [recHier_lookup]
  have hw1 : lookupD im pid pid ∈ writesFor im ns n0.id :=
    writesFor_of_node im ns n0.id n1 pid hn1 hpid hkey
  have hall : ∀ w ∈ writesFor im ns n0.id, w = pid := by
    intro w hw
    obtain ⟨n2, hn2, pid2, hp2, hk2, hv2⟩ := writesFor_mem im ns n0.id w hw
    have h2 := recElem_im_lookup ns stPre.elements stPre.hashToId [] hbnodup n2 hn2
    rw [← him2] at h2
    have hk3 : canonEntry stPre.hashToId ns n2 = n0.id := by
      unfold lookupD at hk2
      rw [h2] at hk2
      exact hk2
    have hcar := (hcanon n2 hn2).1 hk3
    have hn2n1 : n2 = n1 := hu n2 hn2 (leafHashP_of h n2 hcar.1 hcar.2)
    subst hn2n1
    rw [hpid, Option.some.injEq] at hp2
    subst hp2
    rw [hv2, hpidval]
  obtain ⟨w, hwmem, hf⟩ := foldl_override_of_mem (writesFor im ns n0.id)
    (lookupA [] n0.id) (fun hc => by rw [hc] at hw1; exact List.not_mem_nil _ hw1)
  rw [hf, hall w hwmem]

/-- C1: a content-bearing leaf with byte-identical content in two versions is
stored once in `elements` (exactly one entry, keyed by the id of the first
occurrence in processing order; later carriers of the same fingerprint add no
key of their own), and each version's hierarchy map has its own entry mapping
that canonical id to that version's parent. -/
theorem C1_dedup_across_versions (pub : Str) (vs : List (Str × Str))
    (v1 b1 v2 b2 : Str) (n1 n2 n0 : Node) (h : Str)
    (hnodup : (vs.map Prod.fst).Nodup)
    (hm1 : (v1, b1) ∈ vs) (hb1 : b1 ≠ [])
    (hm2 : (v2, b2) ∈ vs) (hb2 : b2 ≠ [])
    (hn1 : n1 ∈ (buildHierarchy pub v1 b1).all_nodes)
    (hn2 : n2 ∈ (buildHierarchy pub v2 b2).all_nodes)
    (he1 : dedupEligible n1 = true) (he2 : dedupEligible n2 = true)
    (hsame : n1.content = n2.content)
    (hch1 : n1.content_hash = some h)
    (hu1 : ∀ m ∈ (buildHierarchy pub v1 b1).all_nodes, leafHashP h m = true → m = n1)
    (hu2 : ∀ m ∈ (buildHierarchy pub v2 b2).all_nodes, leafHashP h m = true → m = n2)
    (hn0 : firstLeafHash (processedNodes pub vs) h = some n0) :
    ((keysA (reconcileAux pub vs).elements).countP (fun k => k = n0.id) = 1 ∧
      (∀ m, m ∈ processedNodes pub vs → leafHashP h m = true → m.id ≠ n0.id →
        m.id ∉ keysA (reconcileAux pub vs).elements)) ∧
    (∃ pid1 hier1, n1.parent_id = some pid1 ∧
      lookupA (reconcileAux pub vs).hierarchies v1 = some hier1 ∧
      lookupA hier1 n0.id = some pid1) ∧
    (∃ pid2 hier2, n2.parent_id = some pid2 ∧
      lookupA (reconcileAux pub vs).hierarchies v2 = some hier2 ∧
      lookupA hier2 n0.id = some pid2) := by
  have hch2 : n2.content_hash = some h := by
    have hwf2 := buildHierarchy_wf pub v2 b2 n2 hn2
    unfold NodeWF at hwf2
    rw [if_pos (dedupEligible_content_ne n2 he2)] at hwf2
    rw [hwf2]
    have hnorm := build_node_hash_norm pub v1 b1 n1 h hn1 hch1
    unfold computeContentHash
    rw [← hsame, ← hnorm]
  have hels : (reconcileAux pub vs).elements =
      (recElemLoop ([], [], []) (processedNodes pub vs)).1 :=
    (foldl_elements_hash pub vs ⟨[], [], [], []⟩).1
  have hPNnodup := processedNodes_nodup pub vs hnodup
  refine ⟨⟨?_, ?_⟩, ?_, ?_⟩
  · have hreg := recElem_els_register (processedNodes pub vs) [] [] [] n0 h
      hPNnodup hn0 rfl
    have hmem : n0.id ∈ keysA (recElemLoop ([], [], []) (processedNodes pub vs)).1 :=
      List.mem_map.2 ⟨_, lookupA_mem _ _ _ hreg, rfl⟩
    have hnd : (keysA (recElemLoop ([], [], []) (processedNodes pub vs)).1).Nodup :=
      recElem_keys_nodup _ [] [] [] hPNnodup List.nodup_nil
        (fun n _ hc => absurd hc (List.not_mem_nil _))
    rw [hels]
    exact countP_eq_one_of_nodup _ _ hnd hmem
  · intro m hmPN hlp hne
    rw [hels]
    obtain ⟨hem, hchm⟩ := leafHashP_eq_true h m hlp
    refine recElem_skip _ [] [] [] m h hPNnodup hmPN hem hchm ?_
      (fun hc => absurd hc (List.not_mem_nil _))
    intro _ hc
    rw [hn0, Option.some.injEq] at hc
    subst hc
    exact hne rfl
  · exact version_hier_entry pub vs v1 b1 n1 n0 h hnodup hm1 hb1 hn1 he1 hch1 hu1 hn0
  · exact version_hier_entry pub vs v2 b2 n2 n0 h hnodup hm2 hb2 hn2 he2 hch2 hu2 hn0

/-- C8 (amended): every reported environment span is delimited by a
begin/end pair keyed by the same environment name (a differently named close
never terminates a span), the span's full text is exactly the open delimiter,
the inner content and that close, and the close is the first close of that
name after the open (the non-greedy regex does not extend nested same-name
environments to the balanced close). -/
theorem C8_env_spans (content : Str) (e : EnvSpan)
    (he : e ∈ extractEnvironments content) :
    e.full_content =
      "\\begin\x7b".data ++ (e.env_name ++ '\x7d' :: (e.content ++ endTag e.env_name)) ∧
    containsSub (endTag e.env_name) e.content = false ∧ e.env_name ≠ [] :=
  extractEnvsGo_spec _ content 0 e he

/-- C8 counterexample: with nested environments of the same name the span
stops at the FIRST `\end\x7bitemize\x7d`, not the balanced one: the reported
content still contains an unmatched inner `\begin\x7bitemize\x7d`. -/
theorem C8_counterexample :
    ∃ e ∈ extractEnvironments
        "\\begin\x7bitemize\x7dA\\begin\x7bitemize\x7dB\\end\x7bitemize\x7dC\\end\x7bitemize\x7d".data,
      e.env_name = "itemize".data ∧
      containsSub "\\begin\x7bitemize\x7d".data e.content = true ∧
      containsSub "\\end\x7bitemize\x7d".data e.content = false ∧
      e.content = "A\\begin\x7bitemize\x7dB".data := by decide

/-- C7 counterexample: a starred heading titled `References` is NOT in the
administrative allow-list, yet `extract_sections` keeps it (flagged as a
references span), so allow-list membership is not necessary for inclusion. -/
theorem C7_counterexample :
    (∃ s ∈ extractSections "\\section*\x7bReferences\x7d".data,
        s.is_unnumbered = true ∧ s.title = "References".data) ∧
    isInclTitle "References".data = false := by decide

/-- C2 (code bug): a references heading at position 0 is detected, but the
truthiness test `if references_start_pos` treats the position 0 as absent, so
the whole body, heading included, is processed into paragraph and sentence
nodes. -/
theorem C2_boundary_position_zero :
    (∃ s ∈ extractSections "\\section\x7bReferences\x7dHello.".data,
        s.is_references = true ∧ s.position = 0) ∧
    (∃ n ∈ (buildHierarchy "p".data "v1".data
        "\\section\x7bReferences\x7dHello.".data).all_nodes,
      n.ntype = "sentence".data ∧
      n.content = "\\section\x7bReferences\x7dHello.".data) := by decide

/-- C5 (amended): the spec's example body yields the root, one section node
titled `Intro`, one paragraph child, and the two sentences as children of the
paragraph (not of the section); nothing is derived from the References
section. -/
theorem C5_intro_example :
    (buildHierarchy "p".data "v1".data
      "\\section\x7bIntro\x7dHello world. This is a test.\\section\x7bReferences\x7d\\bibitem...".data).all_nodes =
    [Node.mk "p-v1-document".data "document".data [] "p v1".data 0 none none,
     Node.mk "p-v1-section-1".data "section".data [] "Intro".data 1
       (some "p-v1-document".data) none,
     Node.mk "p-v1-section-1-paragraph-1".data "paragraph".data
       "Hello world. This is a test.".data [] 2 (some "p-v1-section-1".data)
       (some "Hello world. This is a test.".data),
     Node.mk "p-v1-section-1-paragraph-1-sentence-1".data "sentence".data
       "Hello world.".data [] 3 (some "p-v1-section-1-paragraph-1".data)
       (some "Hello world.".data),
     Node.mk "p-v1-section-1-paragraph-1-sentence-2".data "sentence".data
       "This is a test.".data [] 3 (some "p-v1-section-1-paragraph-1".data)
       (some "This is a test.".data)] := by decide

/-- C5 counterexample: the two sentences exist, but neither is a direct child
of the `Intro` section node (they hang off the intermediate paragraph), so
the section does not have two sentence children. -/
theorem C5_counterexample :
    (∃ n ∈ (buildHierarchy "p".data "v1".data
        "\\section\x7bIntro\x7dHello world. This is a test.\\section\x7bReferences\x7d\\bibitem...".data).all_nodes,
      n.ntype = "sentence".data ∧ n.content = "Hello world.".data) ∧
    ¬ (∃ n ∈ (buildHierarchy "p".data "v1".data
        "\\section\x7bIntro\x7dHello world. This is a test.\\section\x7bReferences\x7d\\bibitem...".data).all_nodes,
      n.ntype = "sentence".data ∧ n.parent_id = some "p-v1-section-1".data) := by decide

/-- C3 counterexample: with two identical sentences in one version, the
first sentence node's parent link (`paragraph-1`) is overwritten in the
version's hierarchy map by the duplicate's parent (`paragraph-2`), so the
node's own parent link is dropped. -/
theorem C3_counterexample :
    (∃ n ∈ (buildHierarchy "p".data "v1".data
        "One. Same here.\n\nTwo. Same here.".data).all_nodes,
      n.id = "p-v1-document-paragraph-1-sentence-2".data ∧
      n.parent_id = some "p-v1-document-paragraph-1".data) ∧
    (∃ hier, lookupA (reconcileAux "p".data
        [("v1".data, "One. Same here.\n\nTwo. Same here.".data)]).hierarchies
        "v1".data = some hier ∧
      lookupA hier "p-v1-document-paragraph-1-sentence-2".data =
        some "p-v1-document-paragraph-2".data) := by decide

/-- C4 counterexample: the raw stored values of `elements` are NOT
order-independent: the carrier chosen as canonical changes with the version
order, and the raw text kept differs by internal whitespace. -/
theorem C4_counterexample :
    List.Perm
      [("v1".data, "A one. Hello  world.".data), ("v2".data, "B one. Hello world.".data)]
      [("v2".data, "B one. Hello world.".data), ("v1".data, "A one. Hello  world.".data)] ∧
    "Hello  world.".data ∈ ((reconcileAux "p".data
        [("v1".data, "A one. Hello  world.".data),
         ("v2".data, "B one. Hello world.".data)]).elements.map Prod.snd) ∧
    "Hello  world.".data ∉ ((reconcileAux "p".data
        [("v2".data, "B one. Hello world.".data),
         ("v1".data, "A one. Hello  world.".data)]).elements.map Prod.snd) := by decide

/-- Witness for C1 at the two-version example whose bodies are both `Hi.`. -/
theorem C1_dedup_across_versions_witness :
    (keysA (reconcileAux "p".data
        [("v1".data, "Hi.".data), ("v2".data, "Hi.".data)]).elements).countP
      (fun k => k = "p-v1-document-paragraph-1-sentence-1".data) = 1 :=
  (C1_dedup_across_versions "p".data [("v1".data, "Hi.".data), ("v2".data, "Hi.".data)]
    "v1".data "Hi.".data "v2".data "Hi.".data
    (Node.mk "p-v1-document-paragraph-1-sentence-1".data "sentence".data "Hi.".data []
      2 (some "p-v1-document-paragraph-1".data) (some "Hi.".data))
    (Node.mk "p-v2-document-paragraph-1-sentence-1".data "sentence".data "Hi.".data []
      2 (some "p-v2-document-paragraph-1".data) (some "Hi.".data))
    (Node.mk "p-v1-document-paragraph-1-sentence-1".data "sentence".data "Hi.".data []
      2 (some "p-v1-document-paragraph-1".data) (some "Hi.".data))
    "Hi.".data
    (by decide) (by decide) (by decide) (by decide) (by decide) (by decide) (by decide)
    (by decide) (by decide) (by decide) (by decide) (by decide) (by decide)
    (by decide)).1.1

/-- Witness for C3 at the single-version example with body `Hi.`. -/
theorem C3_canonical_key_witness :
    ∃ im hier,
      lookupA (reconcileAux "p".data [("v1".data, "Hi.".data)]).idMaps "v1".data =
        some im ∧
      lookupA (reconcileAux "p".data [("v1".data, "Hi.".data)]).hierarchies "v1".data =
        some hier ∧
      lookupD im "p-v1-document-paragraph-1-sentence-1".data
        "p-v1-document-paragraph-1-sentence-1".data ∈ keysA hier :=
  C3_canonical_key "p".data [("v1".data, "Hi.".data)] "v1".data "Hi.".data
    (Node.mk "p-v1-document-paragraph-1-sentence-1".data "sentence".data "Hi.".data []
      2 (some "p-v1-document-paragraph-1".data) (some "Hi.".data))
    "p-v1-document-paragraph-1".data
    (by decide) (by decide) (by decide) (by decide) (by decide)

/-- Witness for C4 at the whitespace-divergent two-version example. -/
theorem C4_vocabulary_order_independent_witness :
    (vfp (reconcileAux "p".data
        [("v1".data, "A one. Hello  world.".data),
         ("v2".data, "B one. Hello world.".data)]).elements).toFinset =
      (vfp (reconcileAux "p".data
        [("v2".data, "B one. Hello world.".data),
         ("v1".data, "A one. Hello  world.".data)]).elements).toFinset :=
  C4_vocabulary_order_independent "p".data
    [("v1".data, "A one. Hello  world.".data), ("v2".data, "B one. Hello world.".data)]
    [("v2".data, "B one. Hello world.".data), ("v1".data, "A one. Hello  world.".data)]
    (by decide) (by decide)

/-- Witness for C6 at the two-version `Hi.` example. -/
theorem C6_no_dangling_witness :
    "p-v1-document".data ∈ keysA (buildHierarchyFromVersions "p".data
      [("v1".data, "Hi.".data), ("v2".data, "Hi.".data)]).elements ∧
    "p-v1-document-paragraph-1".data ≠ rootIdOf "q".data "v9".data :=
  C6_no_dangling "p".data [("v1".data, "Hi.".data), ("v2".data, "Hi.".data)] "v1".data
    [("p-v1-document-paragraph-1".data, "p-v1-document".data),
     ("p-v1-document-paragraph-1-sentence-1".data, "p-v1-document-paragraph-1".data)]
    "p-v1-document-paragraph-1".data "p-v1-document".data
    (by decide) (by decide) "q".data "v9".data

/-- Witness for C7 at a starred `Appendix` heading (which is retained). -/
theorem C7_starred_allowlist_witness :
    (∃ s, classifySpan (RawSection.mk "section".data true "Appendix".data 0 19) = some s ∧
      s ∈ extractSections "\\section*\x7bAppendix\x7d".data ∧
      s.title = "Appendix".data) ↔
    isInclTitle "Appendix".data = true :=
  C7_starred_allowlist "\\section*\x7bAppendix\x7d".data
    (RawSection.mk "section".data true "Appendix".data 0 19)
    (by decide) (by decide) (by decide)

/-- Witness for C8 at a minimal single environment. -/
theorem C8_env_spans_witness :
    "\\begin\x7bab\x7dX\\end\x7bab\x7d".data =
      "\\begin\x7b".data ++ ("ab".data ++ '\x7d' :: ("X".data ++ endTag "ab".data)) ∧
    containsSub (endTag "ab".data) "X".data = false ∧ "ab".data ≠ [] :=
  C8_env_spans "\\begin\x7bab\x7dX\\end\x7bab\x7d".data
    (EnvSpan.mk "ab".data "environment".data "X".data
      "\\begin\x7bab\x7dX\\end\x7bab\x7d".data 0 19)
    (by decide)

/-- Witness for C9: two generator calls for the same type and parent, before
and after the counter moved, give distinct ids; the root id is determined by
publication and version. -/
theorem C9_generator_witness :
    (getNextId (Builder.mk "p".data "v1".data [] []) "section".data
        (some "p-v1-document".data)).1 ≠
      (getNextId (Builder.mk "p".data "v1".data [("section".data, 1)] [])
        "section".data (some "p-v1-document".data)).1 ∧
    ∃ rest, (buildHierarchy "p".data "v1".data []).all_nodes =
        mkRoot "p".data "v1".data :: rest ∧
      (mkRoot "p".data "v1".data).id = rootIdOf "p".data "v1".data :=
  C9_generator (Builder.mk "p".data "v1".data [] [])
    (Builder.mk "p".data "v1".data [("section".data, 1)] [])
    "section".data (some "p-v1-document".data) "p".data "v1".data []
    rfl rfl (by decide)

/-- Witness for C10 at the title `The \x7bX\x7d method`: the reported title is
the part before the first closing brace and the heading ends right after it. -/
theorem C10_title_truncated_witness :
    ∃ tl, extractSections ("\\section\x7b".data ++
        ("The \x7bX".data ++ '\x7d' :: " method\x7dTail.".data)) =
      SectionSpan.mk "\\section".data "The \x7bX".data 1 0 16 false false false :: tl :=
  C10_title_truncated "The \x7bX".data " method\x7dTail.".data
    (by decide) (by decide) (by decide)
